import Mathlib

/-!
Verification development for the mavgen dialect compiler (rust-mavlink).

This file contains a shallow embedding of the compiler pipeline
(XML model, parser include handling, flattener, normaliser, IR model)
translated from the Rust sources under mavgen/src, together with
theorems settling the frozen claims about the specification.

Machine integers (u8, u16, u32, u64) are modelled as Nat with explicit
reduction modulo 2 to the relevant power where overflow matters.
Strings are Lean Strings; all identifiers occurring in dialects are
ASCII, and byte-level operations (CRC) read the character codes.
-/

namespace Mavgen

/-- Paths are modelled as plain strings; the World interface is in charge
of producing canonical ones. -/
abbrev Path := String

/-! ## CRC-16/MCRF4XX

Modelled from the spec: the source uses the external crate function
crc_any::CRCu16::crc16mcrf4cc, which the specification pins down as the
CRC-16 MCRF4XX: polynomial 0x1021 reflected (0x8408), initial value
0xFFFF, reflected input/output, no final xor.  One input byte updates
the 16-bit state by xoring the byte into the low bits and then running
eight LSB-first polynomial division steps. -/

/-- One LSB-first polynomial division step of the reflected CRC. -/
def crc16_bit_step (crc : Nat) : Nat :=
  if crc % 2 = 1 then (crc / 2) ^^^ 0x8408 else crc / 2

/-- Iterate the bit step a given number of times (eight per input byte). -/
def crc16_bits : Nat → Nat → Nat
  | 0, crc => crc
  | n + 1, crc => crc16_bits n (crc16_bit_step crc)

/-- Digest a list of bytes into the CRC state, as CRCu16.digest does. -/
def crc16_digest (crc : Nat) (bytes : List Nat) : Nat :=
  bytes.foldl (fun c b => crc16_bits 8 (c ^^^ b % 256)) crc

/-- Bytes of an ASCII string, as the Rust code digests str::as_bytes. -/
def strBytes (s : String) : List Nat :=
  s.data.map Char.toNat

/-! ## IR model (model.rs) -/

/-- Validated identifier, model.rs Ident(String). -/
structure Ident where
  toStr : String
deriving DecidableEq

/-- Development status tag, model.rs DevStatus. -/
inductive DevStatus where
  | Deprecated (since : String) (replaced_by : String) (description : Option String)
  | Wip (since : Option String) (description : Option String)
deriving DecidableEq

/-- Normalised enum entry, model.rs Entry. The value is a u64. -/
structure Entry where
  name : Ident
  description : Option String
  dev_status : Option DevStatus
  value : Nat
deriving DecidableEq

/-- Normalised enum, model.rs Enum. -/
structure Enum where
  name : Ident
  bitmask : Bool
  description : Option String
  dev_status : Option DevStatus
  entries : List Entry
deriving DecidableEq

/-- Primitive wire types, model.rs PrimitiveType. -/
inductive PrimitiveType where
  | Float
  | Double
  | Char
  | Int8
  | Uint8
  | Uint8MavlinkVersion
  | Int16
  | Uint16
  | Int32
  | Uint32
  | Int64
  | Uint64
deriving DecidableEq

/-- Wire size in bytes of a primitive type, model.rs PrimitiveType::size. -/
def PrimitiveType.size : PrimitiveType → Nat
  | .Float => 4
  | .Double => 8
  | .Char => 1
  | .Int8 => 1
  | .Uint8 => 1
  | .Uint8MavlinkVersion => 1
  | .Int16 => 2
  | .Uint16 => 2
  | .Int32 => 4
  | .Uint32 => 4
  | .Int64 => 8
  | .Uint64 => 8

/-- XML spelling of a primitive type, model.rs PrimitiveType::as_str.
Note that Uint8MavlinkVersion is spelled uint8_t. -/
def PrimitiveType.as_str : PrimitiveType → String
  | .Float => "float"
  | .Double => "double"
  | .Char => "char"
  | .Int8 => "int8_t"
  | .Uint8 => "uint8_t"
  | .Uint8MavlinkVersion => "uint8_t"
  | .Int16 => "int16_t"
  | .Uint16 => "uint16_t"
  | .Int32 => "int32_t"
  | .Uint32 => "uint32_t"
  | .Int64 => "int64_t"
  | .Uint64 => "uint64_t"

/-- Field type: bare primitive or fixed-size array, model.rs FieldType.
The array count is a u8 (the parser enforces the bound). -/
inductive FieldType where
  | Primitive (t : PrimitiveType)
  | Array (t : PrimitiveType) (n : Nat)
deriving DecidableEq

/-- Wire size of a field type, model.rs FieldType::wire_size. -/
def FieldType.wire_size : FieldType → Nat
  | .Primitive t => t.size
  | .Array t n => t.size * n

/-- Underlying primitive of a field type, model.rs FieldType::primitive_type. -/
def FieldType.primitive_type : FieldType → PrimitiveType
  | .Primitive t => t
  | .Array t _ => t

/-- Storage widths for enums, model.rs RustSizeType (U8 < U16 < U32 < U64). -/
inductive RustSizeType where
  | U8
  | U16
  | U32
  | U64
deriving DecidableEq

/-- Bit width giving the derived order of RustSizeType. -/
def RustSizeType.width : RustSizeType → Nat
  | .U8 => 8
  | .U16 => 16
  | .U32 => 32
  | .U64 => 64

/-- Normalised message field, model.rs Field.  Ancillary attributes are
carried verbatim; f32 attributes are modelled as Float. -/
structure Field where
  name : Ident
  type_ : FieldType
  print_format : Option String
  enum_ : Option Ident
  display : Option String
  units : Option String
  increment : Option Float
  min_value : Option Float
  max_value : Option Float
  multiplier : Option String
  default : Option String
  instance_ : Option Bool
  invalid : Option String
  description : Option String

/-- Normalised message, model.rs Message.  The id is a u32. -/
structure Message where
  name : Ident
  id : Nat
  dev_status : Option DevStatus
  description : Option String
  fields : List Field
  extension_fields : List Field

/-- Total wire size of a message, model.rs Message::wire_size: sum over the
regular fields chained with the extension fields. -/
def Message.wire_size (m : Message) : Nat :=
  ((m.fields ++ m.extension_fields).map (fun field => field.type_.wire_size)).sum

/-- Maximum entry value of an enum, model.rs Enum::min_rust_size helper.
The source unwraps a nonempty iterator; the model returns 0 for the
(unreachable) empty case. -/
def Enum.max_entry_value (e : Enum) : Nat :=
  (e.entries.map (fun entry => entry.value)).foldl max 0

/-- Minimum integer width that fits every entry value,
model.rs Enum::min_rust_size. -/
def Enum.min_rust_size (e : Enum) : RustSizeType :=
  let max_value := e.max_entry_value
  if max_value ≤ 0xFF then .U8
  else if max_value ≤ 0xFFFF then .U16
  else if max_value ≤ 0xFFFFFFFF then .U32
  else .U64

/-- CRC contribution of one regular field, the body of the loop in
model.rs Message::extra_crc: XML type spelling, space, field name, space,
then the length byte for arrays. -/
def extra_crc_field_step (c : Nat) (field : Field) : Nat :=
  let typ := field.type_.primitive_type
  let c := crc16_digest c (strBytes typ.as_str ++ strBytes " ")
  let c := crc16_digest c (strBytes field.name.toStr ++ strBytes " ")
  match field.type_ with
  | .Array _ size => crc16_digest c [size]
  | .Primitive _ => c

/-- Extra CRC of a message, model.rs Message::extra_crc: CRC-16/MCRF4XX over
the message name, a space, and the per-regular-field byte sequence, folded
to 8 bits as low byte xor high byte. -/
def Message.extra_crc (m : Message) : Nat :=
  let crc := crc16_digest 0xFFFF (strBytes m.name.toStr ++ strBytes " ")
  let crc := m.fields.foldl extra_crc_field_step crc
  ((crc % 256) ^^^ (crc / 256)) % 256

/-! ## XML model (xml.rs), lossless parse-level mirror of the dialect schema.
The Description newtype is modelled directly as its contained String, and
the Enums and Messages vector wrappers as plain lists. -/

namespace Xml

/-- Deprecation marker, xml.rs Deprecated. -/
structure Deprecated where
  description : String
  since : String
  replaced_by : String

/-- Work-in-progress marker, xml.rs Wip. -/
structure Wip where
  description : String
  since : Option String

/-- Development status, xml.rs DevStatus. -/
inductive DevStatus where
  | Deprecated (d : Deprecated)
  | Wip (w : Wip)

/-- Entry parameter, xml.rs Param; carried by the core but never read.
The index is a u8, decimal_places a u8, and the f32 attributes are
modelled as Float. -/
structure Param where
  index : Nat
  label : Option String
  units : Option String
  multiplier : Option String
  instance_ : Option Bool
  enum_ : Option String
  decimal_places : Option Nat
  increment : Option Float
  min_value : Option Float
  max_value : Option Float
  reserved : Option Bool
  default : Option String
  content : Option String

/-- Raw enum entry, xml.rs Entry.  The value is the raw literal string,
parsed only during normalisation. -/
structure Entry where
  name : String
  value : Option String
  has_location : Option Bool
  is_destination : Option Bool
  mission_only : Option Bool
  description : Option String
  params : List Param
  dev_status : Option DevStatus

/-- Minimal entry constructor used by tests, xml.rs Entry::new_min. -/
def Entry.new_min (name : String) (value : Option String) : Entry :=
  { name := name, value := value, has_location := none, is_destination := none,
    mission_only := none, description := none, params := [], dev_status := none }

/-- Raw enum, xml.rs Enum. -/
structure Enum where
  name : String
  bitmask : Option Bool
  description : Option String
  dev_status : Option DevStatus
  entries : List Entry

/-- Raw field, xml.rs Field.  The type is the raw string; the description
is inline element text (possibly empty). -/
structure Field where
  name : String
  type_ : String
  print_format : Option String
  enum_ : Option String
  display : Option String
  units : Option String
  increment : Option Float
  min_value : Option Float
  max_value : Option Float
  multiplier : Option String
  default : Option String
  instance_ : Option Bool
  invalid : Option String
  description : String

/-- Minimal field constructor used by tests, xml.rs Field::new_min. -/
def Field.new_min (name : String) (type_ : String) : Field :=
  { name := name, type_ := type_, print_format := none, enum_ := none, display := none,
    units := none, increment := none, min_value := none, max_value := none,
    multiplier := none, default := none, instance_ := none, invalid := none,
    description := "" }

/-- Raw message, xml.rs Message: everything after the extensions separator
lands in extension_fields.  The id is a u32. -/
structure Message where
  name : String
  id : Nat
  dev_status : Option DevStatus
  description : Option String
  fields : List Field
  extension_fields : List Field

/-- Root document element, xml.rs Mavlink. -/
structure Mavlink where
  include_ : List String
  version : Option Nat
  dialect : Option Nat
  enums : Option (List Enum)
  messages : Option (List Message)

end Xml

/-- Map empty strings to absence, the non_empty helper shared by
model.rs and normaliser.rs. -/
def non_empty (str : String) : Option String :=
  if str.isEmpty then none else some str

/-- Conversion of the development status into the IR,
model.rs From of xml::DevStatus for DevStatus. -/
def DevStatus.ofXml : Xml.DevStatus → DevStatus
  | .Deprecated d => .Deprecated d.since d.replaced_by (non_empty d.description)
  | .Wip w => .Wip w.since (non_empty w.description)

/-! ## String and number parsing helpers -/

/-- ASCII lowercasing of one character, as u8::make_ascii_lowercase. -/
def asciiLower (c : Char) : Char :=
  if 'A' ≤ c ∧ c ≤ 'Z' then Char.ofNat (c.toNat + 32) else c

/-- ASCII lowercasing of a string, as str::make_ascii_lowercase.  The
identifier validator uses str::to_lowercase, which agrees on ASCII input. -/
def asciiLowerStr (s : String) : String :=
  ⟨s.data.map asciiLower⟩

/-- Value of one digit character in the given radix, accepting 0-9 and
letters, as Rust digit parsing does. -/
def digitVal (radix : Nat) (c : Char) : Option Nat :=
  let v : Option Nat :=
    if '0' ≤ c ∧ c ≤ '9' then some (c.toNat - 48)
    else if 'a' ≤ c ∧ c ≤ 'z' then some (c.toNat - 87)
    else if 'A' ≤ c ∧ c ≤ 'Z' then some (c.toNat - 55)
    else none
  match v with
  | some d => if d < radix then some d else none
  | none => none

/-- Accumulate decimal digits left to right; none on a non-digit. -/
def parseDigits (radix : Nat) : List Char → Nat → Option Nat
  | [], acc => some acc
  | c :: cs, acc =>
    match digitVal radix c with
    | some d => parseDigits radix cs (acc * radix + d)
    | none => none

/-- Strip one optional leading plus sign, as Rust unsigned parsing does. -/
def dropPlusSign : List Char → List Char
  | '+' :: rest => rest
  | cs => cs

/-- Rust unsigned integer parsing (str::parse and u64::from_str_radix):
an optional leading plus sign, then at least one digit in the radix; the
value must lie below the bound of the target width. -/
def parse_uint (radix bound : Nat) (s : String) : Option Nat :=
  let cs := dropPlusSign s.data
  if cs.isEmpty then none
  else
    match parseDigits radix cs 0 with
    | some v => if v < bound then some v else none
    | none => none

/-- Strip a literal character sequence from the front, str::strip of a
leading pattern. -/
def stripStartChars : List Char → List Char → Option (List Char)
  | [], s => some s
  | p :: ps, c :: cs => if p = c then stripStartChars ps cs else none
  | _ :: _, [] => none

/-- Split at the first occurrence of a character, str::split_once. -/
def splitOnceChar (sep : Char) : List Char → Option (List Char × List Char)
  | [] => none
  | c :: cs =>
    if c = sep then some ([], cs)
    else (splitOnceChar sep cs).map (fun p => (c :: p.1, p.2))

/-- Strip one trailing character, str::strip_suffix with a char pattern. -/
def stripEndChar (sep : Char) (s : List Char) : Option (List Char) :=
  if s.getLast? = some sep then some s.dropLast else none

/-! ## Identifier and type parsing (model.rs FromStr impls) -/

/-- Reserved words rejected by the identifier validator,
model.rs FORBIDDEN_NAMES. -/
def FORBIDDEN_NAMES : List String :=
  ["break", "case", "class", "catch", "const", "continue", "debugger", "default",
   "delete", "do", "else", "export", "extends", "finally", "for", "function",
   "if", "import", "in", "instanceof", "let", "new", "return", "super",
   "switch", "this", "throw", "try", "typeof", "var", "void", "while", "with",
   "yield", "enum", "await", "implements", "package", "protected", "static",
   "interface", "private", "public", "abstract", "boolean", "byte", "char",
   "double", "final", "float", "goto", "int", "long", "native", "short",
   "synchronized", "transient", "volatile"]

/-- Identifier validation, model.rs FromStr for Ident: non-empty, not a
single underscore, no leading ASCII digit, no whitespace, and not a
reserved word case-insensitively. -/
def ident_from_str (s : String) : Option Ident :=
  if s.isEmpty ∨ s = "_" then none
  else if (match s.data.head? with
           | some c => c.isDigit
           | none => false) then none
  else if s.data.any Char.isWhitespace then none
  else if FORBIDDEN_NAMES.contains (asciiLowerStr s) then none
  else some ⟨s⟩

/-- Primitive type spelling parser, model.rs FromStr for PrimitiveType. -/
def primitive_type_from_str : String → Option PrimitiveType
  | "float" => some .Float
  | "double" => some .Double
  | "char" => some .Char
  | "int8_t" => some .Int8
  | "uint8_t" => some .Uint8
  | "uint8_t_mavlink_version" => some .Uint8MavlinkVersion
  | "int16_t" => some .Int16
  | "uint16_t" => some .Uint16
  | "int32_t" => some .Int32
  | "uint32_t" => some .Uint32
  | "int64_t" => some .Int64
  | "uint64_t" => some .Uint64
  | _ => none

/-- Field type parser, model.rs FromStr for FieldType: a bare primitive, or
primitive and a bracketed u8 array length. -/
def field_type_from_str (s : String) : Option FieldType :=
  match stripEndChar ']' s.data with
  | some without_closing_bracket =>
    match splitOnceChar '[' without_closing_bracket with
    | none => none
    | some (type_part, size_part) =>
      match primitive_type_from_str ⟨type_part⟩ with
      | none => none
      | some typ =>
        match parse_uint 10 (2 ^ 8) ⟨size_part⟩ with
        | none => none
        | some size => some (.Array typ size)
  | none => (primitive_type_from_str s).map .Primitive

/-! ## Normaliser (normaliser.rs) -/

/-- Entry value literal parse failure, normaliser.rs ParseEntryValueError.
The ParseInt variant of the source carries the std error detail, which is
not observable by the core and is dropped here. -/
inductive ParseEntryValueError where
  | ParseInt
  | ExponentiationOverflowed
  | UnknownFormat
deriving DecidableEq

/-- Normalisation error, normaliser.rs Error. -/
inductive NError where
  | InvalidName (item : String) (super_item : Option Ident) (name : String)
  | ItemRedefinition (item : String) (super_item : Option Ident) (name : Ident)
  | InvalidEntry (err : ParseEntryValueError) (enum_ : Ident) (entry : String)
  | BitmaskWithoutValue (enum_ : Ident)
  | RepeatedEntryValue (enum_ : Ident) (entry_1 : Ident) (entry_2 : Ident) (value : Nat)
  | RepeatedMessageId (msg_1 : Ident) (msg_2 : Ident) (id : Nat)
  | InvalidFieldType (message : Ident) (field : Ident) (type_ : String)
  | InvalidEnumReference (message : Ident) (field : Ident) (enum_ : String)
  | NoSubItems (item : String) (sub_items : String) (name : Ident)
  | FieldTypeIsIncompatibleWithEnum (message : Ident) (field : Ident)
      (enum_ : Ident) (field_type : FieldType)
  | MessageIsTooBig (message : Ident) (size : Nat) (max_size : Nat)
deriving DecidableEq

/-- Split a character list at every occurrence of two consecutive stars,
leftmost first, as str::split with the pattern of two stars. -/
def split_on_double_star : List Char → List (List Char)
  | [] => [[]]
  | '*' :: '*' :: rest => [] :: split_on_double_star rest
  | c :: rest =>
    match split_on_double_star rest with
    | part :: parts => (c :: part) :: parts
    | [] => [[c]]

/-- Split on the python power operator, normaliser.rs
try_parse_python_exp_syntax: succeeds exactly when one separator occurs. -/
def try_parse_python_exp_syntax (value : String) : Option (String × String) :=
  match split_on_double_star value.data with
  | [base, exponent] => some (⟨base⟩, ⟨exponent⟩)
  | _ => none

/-- Overflow-checked u64 exponentiation, u64::checked_pow. -/
def checked_pow (base exp : Nat) : Option Nat :=
  if base ^ exp < 2 ^ 64 then some (base ^ exp) else none

/-- Entry value literal parser, normaliser.rs parse_entry_value: lowercase
the input, then try all-decimal, hex with a 0x marker, binary with a 0b
marker, and python exponent syntax, in that order. -/
def parse_entry_value (value : String) : Except ParseEntryValueError Nat :=
  let value := asciiLowerStr value
  if value.data.all Char.isDigit then
    match parse_uint 10 (2 ^ 64) value with
    | some v => .ok v
    | none => .error .ParseInt
  else
    match stripStartChars ['0', 'x'] value.data with
    | some body =>
      match parse_uint 16 (2 ^ 64) ⟨body⟩ with
      | some v => .ok v
      | none => .error .ParseInt
    | none =>
      match stripStartChars ['0', 'b'] value.data with
      | some body =>
        match parse_uint 2 (2 ^ 64) ⟨body⟩ with
        | some v => .ok v
        | none => .error .ParseInt
      | none =>
        match try_parse_python_exp_syntax value with
        | some (base, exp) =>
          match parse_uint 10 (2 ^ 64) base with
          | none => .error .ParseInt
          | some b =>
            match parse_uint 10 (2 ^ 8) exp with
            | none => .error .ParseInt
            | some e =>
              match checked_pow b e with
              | some v => .ok v
              | none => .error .ExponentiationOverflowed
        | none => .error .UnknownFormat

/-- Derivation loop of normaliser.rs derive_enum_entry_values, with the
running counter explicit.  An explicit value is parsed and resets the
counter to the value plus one; a missing value takes the counter and
increments it.  The counter lives in u64, so the increment wraps at 2 to
the 64 (in a debug build the source panics at that point instead). -/
def derive_values_loop (enum_ : Ident) : Nat → List Xml.Entry →
    Except NError (List Nat)
  | _, [] => .ok []
  | next_value, entry :: rest =>
    match entry.value with
    | some v =>
      match parse_entry_value v with
      | .ok ok => (derive_values_loop enum_ ((ok + 1) % 2 ^ 64) rest).map (ok :: ·)
      | .error err => .error (.InvalidEntry err enum_ entry.name)
    | none =>
      (derive_values_loop enum_ ((next_value + 1) % 2 ^ 64) rest).map
        (next_value :: ·)

/-- Entry value derivation, normaliser.rs derive_enum_entry_values: the
running counter starts at 1. -/
def derive_enum_entry_values (enum_ : Ident) (entries : List Xml.Entry) :
    Except NError (List Nat) :=
  derive_values_loop enum_ 1 entries

/-- Whether some u64 counter update in the derivation loop overflows, that
is computes value + 1 for a value of 2 to the 64 minus 1.  In a debug
build the source panics exactly there. -/
def derive_values_add_overflows (enum_ : Ident) : Nat → List Xml.Entry → Bool
  | _, [] => false
  | next_value, entry :: rest =>
    match entry.value with
    | some v =>
      match parse_entry_value v with
      | .ok ok => decide (2 ^ 64 ≤ ok + 1) ||
          derive_values_add_overflows enum_ ((ok + 1) % 2 ^ 64) rest
      | .error _ => false
    | none =>
      decide (2 ^ 64 ≤ next_value + 1) ||
        derive_values_add_overflows enum_ ((next_value + 1) % 2 ^ 64) rest

/-- Per-enum record in the normaliser table, normaliser.rs NormalisedEnum. -/
structure NormalisedEnum where
  size : RustSizeType
deriving DecidableEq

/-- Normaliser state, normaliser.rs Normaliser.  The hash containers are
modelled as association lists; only membership and lookup are observable. -/
structure Normaliser where
  enums : List (Ident × NormalisedEnum)
  messages : List Ident
  allocated_message_ids : List (Nat × Ident)
  errors : List NError

/-- Fresh normaliser, the Default instance of normaliser.rs Normaliser. -/
def Normaliser.default : Normaliser :=
  { enums := [], messages := [], allocated_message_ids := [], errors := [] }

/-- Entry loop of normaliser.rs normalise_entries: validate each name,
reject duplicate names and duplicate numeric values, and build the IR
entries in order. -/
def entries_loop (enum_ : Ident) (allocated_values : List (Nat × Ident))
    (allocated_names : List Ident) :
    List (Xml.Entry × Nat) → Except NError (List Entry)
  | [] => .ok []
  | (entry, value) :: rest =>
    match ident_from_str entry.name with
    | none => .error (.InvalidName "entry" (some enum_) entry.name)
    | some name =>
      if allocated_names.contains name then
        .error (.ItemRedefinition "entry" (some enum_) name)
      else
        match allocated_values.lookup value with
        | some old_entry => .error (.RepeatedEntryValue enum_ name old_entry value)
        | none =>
          (entries_loop enum_ ((value, name) :: allocated_values)
              (name :: allocated_names) rest).map
            (fun result =>
              { name := name,
                description := entry.description,
                dev_status := entry.dev_status.map DevStatus.ofXml,
                value := value } :: result)

/-- Entry normalisation, normaliser.rs Normaliser::normalise_entries: a
bitmask enum with any entry lacking an explicit value fails immediately;
otherwise values are derived and the entries walked in order. -/
def normalise_entries (enum_ : Ident) (bitmask : Bool)
    (entries : List Xml.Entry) : Except NError (List Entry) :=
  if bitmask && entries.any (fun entry => entry.value.isNone) then
    .error (.BitmaskWithoutValue enum_)
  else
    match derive_enum_entry_values enum_ entries with
    | .error e => .error e
    | .ok values => entries_loop enum_ [] [] (entries.zip values)

/-- Enum normalisation, normaliser.rs Normaliser::normalise_enum, reading
the accumulated enum table for redefinition checks. -/
def normalise_enum (st : Normaliser) (enum_ : Xml.Enum) : Except NError Enum :=
  match ident_from_str enum_.name with
  | none => .error (.InvalidName "enum" none enum_.name)
  | some name =>
    if (st.enums.lookup name).isSome then
      .error (.ItemRedefinition "enum" none name)
    else
      let bitmask := enum_.bitmask.getD false
      let description := enum_.description
      let dev_status := enum_.dev_status.map DevStatus.ofXml
      if enum_.entries.isEmpty then
        .error (.NoSubItems "enum" "entries" name)
      else
        match normalise_entries name bitmask enum_.entries with
        | .error e => .error e
        | .ok entries =>
          .ok { name := name, bitmask := bitmask, description := description,
                dev_status := dev_status, entries := entries }

/-- Enum batch, normaliser.rs Normaliser::normalise_enums: failed enums are
dropped and their error accumulated; successful ones enter the table. -/
def normalise_enums (st : Normaliser) : List Xml.Enum → Normaliser × List Enum
  | [] => (st, [])
  | enum_ :: rest =>
    match normalise_enum st enum_ with
    | .error err =>
      normalise_enums { st with errors := st.errors ++ [err] } rest
    | .ok ok =>
      let st := { st with
        enums := st.enums ++ [(ok.name, { size := ok.min_rust_size })] }
      let (st, oks) := normalise_enums st rest
      (st, ok :: oks)

/-- Enum reference resolution, normaliser.rs
Normaliser::resolve_enum_reference: the reference must name a known enum,
the carrier must be an integer primitive, and its width must cover the
minimum width of the enum. -/
def resolve_enum_reference (st : Normaliser) (enum_ : String) (type_ : FieldType)
    (message : Ident) (field : Ident) : Except NError Ident :=
  match (ident_from_str enum_).bind
      (fun e => (st.enums.lookup e).map (fun meta => (e, meta))) with
  | none => .error (.InvalidEnumReference message field enum_)
  | some (e, enum_meta) =>
    let field_size : Option RustSizeType :=
      match type_.primitive_type with
      | .Uint8 => some .U8
      | .Int8 => some .U8
      | .Uint16 => some .U16
      | .Int16 => some .U16
      | .Uint32 => some .U32
      | .Int32 => some .U32
      | .Uint64 => some .U64
      | .Int64 => some .U64
      | _ => none
    match field_size with
    | none => .error (.FieldTypeIsIncompatibleWithEnum message field e type_)
    | some field_size =>
      if field_size.width < enum_meta.size.width then
        .error (.FieldTypeIsIncompatibleWithEnum message field e type_)
      else
        .ok e

/-- Field normalisation, normaliser.rs Normaliser::normalise_field. -/
def normalise_field (st : Normaliser) (message : Ident) (field : Xml.Field) :
    Except NError Field :=
  match ident_from_str field.name with
  | none => .error (.InvalidName "field" (some message) field.name)
  | some name =>
    match field_type_from_str field.type_ with
    | none => .error (.InvalidFieldType message name field.type_)
    | some type_ =>
      let enum_res : Except NError (Option Ident) :=
        match field.enum_ with
        | some e =>
          match resolve_enum_reference st e type_ message name with
          | .error err => .error err
          | .ok r => .ok (some r)
        | none => .ok none
      match enum_res with
      | .error err => .error err
      | .ok enum_ =>
        .ok { name := name, type_ := type_,
              print_format := field.print_format,
              enum_ := enum_,
              display := field.display,
              units := field.units,
              increment := field.increment,
              min_value := field.min_value,
              max_value := field.max_value,
              multiplier := field.multiplier,
              default := field.default,
              instance_ := field.instance_,
              invalid := field.invalid,
              description := non_empty field.description }

/-- Field loop of normaliser.rs Normaliser::normalise_fields: the regular
fields tagged false and the extension fields tagged true are normalised in
one pass sharing the name set, and land in their respective output lists
in source order. -/
def fields_loop (st : Normaliser) (message : Ident) (allocated : List Ident) :
    List (Xml.Field × Bool) → Except NError (List Field × List Field)
  | [] => .ok ([], [])
  | (field, is_ext) :: rest =>
    match normalise_field st message field with
    | .error err => .error err
    | .ok f =>
      if allocated.contains f.name then
        .error (.ItemRedefinition "field" (some message) f.name)
      else
        match fields_loop st message (f.name :: allocated) rest with
        | .error err => .error err
        | .ok (r, e) =>
          .ok (if is_ext then (r, f :: e) else (f :: r, e))

/-- Sort key of the field reorder: the primitive size of the field type
(array or not), normaliser.rs normalise_fields sort_by_key. -/
def field_sort_key (field : Field) : Nat :=
  field.type_.primitive_type.size

/-- Descending stable order on fields used by the reorder; sort_by_key with
a Reverse key is a stable sort, modelled by insertion sort. -/
def field_desc (a b : Field) : Prop :=
  field_sort_key b ≤ field_sort_key a

instance : DecidableRel field_desc := fun a b =>
  inferInstanceAs (Decidable (field_sort_key b ≤ field_sort_key a))

instance : IsTotal Field field_desc :=
  ⟨fun a b => Nat.le_total (field_sort_key b) (field_sort_key a)⟩

instance : IsTrans Field field_desc :=
  ⟨fun _ _ _ h1 h2 => Nat.le_trans h2 h1⟩

/-- Field normalisation, normaliser.rs Normaliser::normalise_fields:
normalise all fields, stably sort the regular ones by descending primitive
size, and reject a total wire size above 255 bytes. -/
def normalise_fields (st : Normaliser) (message : Ident)
    (fields extension_fields : List Xml.Field) :
    Except NError (List Field × List Field) :=
  match fields_loop st message []
      (fields.map (fun f => (f, false)) ++
       extension_fields.map (fun f => (f, true))) with
  | .error err => .error err
  | .ok (result_fields, result_extension_fields) =>
    let result_fields := result_fields.insertionSort field_desc
    let total_wire_size :=
      ((result_fields ++ result_extension_fields).map
        (fun field => field.type_.wire_size)).sum
    if total_wire_size > 255 then
      .error (.MessageIsTooBig message total_wire_size 255)
    else
      .ok (result_fields, result_extension_fields)

/-- Insert-or-replace on an association list, HashMap::insert returning the
previous value. -/
def assocInsert [DecidableEq α] (l : List (α × β)) (k : α) (v : β) :
    List (α × β) × Option β :=
  ((k, v) :: l.filter (fun p => p.1 ≠ k), l.lookup k)

/-- Message normalisation, normaliser.rs Normaliser::normalise_message.
The source inserts into the name set and the id map before the
corresponding redefinition checks, so those insertions survive an error;
the returned state reflects that. -/
def normalise_message (st : Normaliser) (message : Xml.Message) :
    Normaliser × Except NError Message :=
  match ident_from_str message.name with
  | none => (st, .error (.InvalidName "message" none message.name))
  | some name =>
    let already := st.messages.contains name
    let st := { st with
      messages := if already then st.messages else st.messages ++ [name] }
    if already then
      (st, .error (.ItemRedefinition "message" none name))
    else
      let (ids, old) := assocInsert st.allocated_message_ids message.id name
      let st := { st with allocated_message_ids := ids }
      match old with
      | some old_name =>
        (st, .error (.RepeatedMessageId old_name name message.id))
      | none =>
        let description := message.description
        let dev_status := message.dev_status.map DevStatus.ofXml
        if message.fields.isEmpty then
          (st, .error (.NoSubItems "message" "fields" name))
        else
          match normalise_fields st name message.fields message.extension_fields with
          | .error err => (st, .error err)
          | .ok (fields, extension_fields) =>
            (st, .ok { name := name, id := message.id, dev_status := dev_status,
                       description := description, fields := fields,
                       extension_fields := extension_fields })

/-- Message batch, normaliser.rs Normaliser::normalise_messages. -/
def normalise_messages (st : Normaliser) :
    List Xml.Message → Normaliser × List Message
  | [] => (st, [])
  | message :: rest =>
    match normalise_message st message with
    | (st, .error err) =>
      normalise_messages { st with errors := st.errors ++ [err] } rest
    | (st, .ok ok) =>
      let (st, oks) := normalise_messages st rest
      (st, ok :: oks)

/-! ## Parser (parser.rs): include graph construction over a World -/

/-- Default include recursion bound, parser.rs MAX_INCLUDE_RECURSION. -/
def MAX_INCLUDE_RECURSION : Nat := 10

/-- Parser error, parser.rs Error.  The Io and Xml variants carry only the
path; the wrapped std error and raw content are not observable. -/
inductive PError where
  | Io (path : Path)
  | Xml (path : Path)
  | RecursionLimitExceeded (stack : List Path)
  | CycleDetected
deriving DecidableEq

/-- Failure mode of reading one file through the World: an I/O failure or
an XML syntax failure. -/
inductive ReadFailure where
  | io
  | xml
deriving DecidableEq

/-- External filesystem interface, parser.rs World.  Modelled from the
spec: reading a file and XML-parsing its bytes (the external hard_xml
crate) are combined into one operation yielding the parsed document. -/
structure World where
  read_file : Path → Except ReadFailure Xml.Mavlink
  normalise_path : Path → Option Path

/-- Parsed file record, parser.rs MavlinkFile. -/
structure MavlinkFile where
  mavlink : Xml.Mavlink
  normalised_includes : List Path

/-- Parser state, parser.rs Parser, minus the World (passed separately).
The parsed hash map is an association list keyed by canonical path. -/
structure Parser where
  parsed : List (Path × MavlinkFile)
  errors : List PError
  max_include_recursion : Nat
  inclusion_stack : List Path

/-- Fresh parser, parser.rs Parser::new. -/
def Parser.new : Parser :=
  { parsed := [], errors := [],
    max_include_recursion := MAX_INCLUDE_RECURSION, inclusion_stack := [] }

/-- Directory part of a slash-separated path: everything up to and
including the last slash (empty for a bare file name). -/
def parent_dir_chars (cs : List Char) : List Char :=
  (cs.reverse.dropWhile (fun c => c ≠ '/')).reverse

/-- Replace the final path component, std Path::with_file_name for the
slash-separated paths this model uses. -/
def with_file_name (path : Path) (name : String) : Path :=
  ⟨parent_dir_chars path.data ++ name.data⟩

/-- Resolve and canonicalise the include list of a file, the include
mapping inside parser.rs Parser::try_parse_recursively; the first failing
include aborts with an Io error carrying the unresolved path. -/
def normalise_includes (w : World) (path : Path) :
    List String → Except PError (List Path)
  | [] => .ok []
  | include_ :: rest =>
    let include_path := with_file_name path include_
    match w.normalise_path include_path with
    | none => .error (.Io include_path)
    | some np =>
      match normalise_includes w path rest with
      | .error e => .error e
      | .ok nps => .ok (np :: nps)

/-- Body of parser.rs Parser::try_parse_recursively: skip already parsed
files, read and parse, resolve includes, record the file, then descend
into each include through the given recursion. -/
def try_parse_recursively (w : World) (recur : Parser → Path → Parser)
    (st : Parser) (path : Path) : Parser × Option PError :=
  if (st.parsed.lookup path).isSome then (st, none)
  else
    match w.read_file path with
    | .error .io => (st, some (.Io path))
    | .error .xml => (st, some (.Xml path))
    | .ok mavlink =>
      match normalise_includes w path mavlink.include_ with
      | .error e => (st, some e)
      | .ok normalised_includes =>
        let st := { st with parsed := st.parsed ++
          [(path, { mavlink := mavlink,
                    normalised_includes := normalised_includes })] }
        (normalised_includes.foldl recur st, none)

/-- Recursion step, parser.rs Parser::parse_normalised: refuse to descend
when the inclusion stack has reached the recursion bound, recording the
stack; otherwise push, parse, record any error, pop.  The fuel argument
only bounds the structural recursion; a call receives fuel exceeding the
remaining allowed depth, so the zero case is never reached. -/
def parse_normalised (w : World) : Nat → Parser → Path → Parser
  | 0, st, _ => st
  | fuel + 1, st, normalised =>
    if st.inclusion_stack.length = st.max_include_recursion then
      { st with errors := st.errors ++
          [.RecursionLimitExceeded st.inclusion_stack] }
    else
      let st1 := { st with inclusion_stack := st.inclusion_stack ++ [normalised] }
      let r := try_parse_recursively w (parse_normalised w fuel) st1 normalised
      let st2 := match r.2 with
        | some e => { r.1 with errors := r.1.errors ++ [e] }
        | none => r.1
      { st2 with inclusion_stack := st2.inclusion_stack.dropLast }

/-- Root entry point, parser.rs Parser::parse: canonicalise then recurse.
The fuel max_include_recursion + 1 covers every reachable depth. -/
def Parser.parse (w : World) (st : Parser) (file : Path) : Parser :=
  match w.normalise_path file with
  | some ok => parse_normalised w (st.max_include_recursion + 1) st ok
  | none => { st with errors := st.errors ++ [.Io file] }

/-- Whether some include of the entry is blocked: it names a parsed file
that has not been emitted yet. -/
def include_blocked (parsed : List (Path × MavlinkFile)) (removed : List Path)
    (deps : List Path) : Bool :=
  deps.any (fun d => (parsed.lookup d).isSome && !(removed.contains d))

/-- Kahn-style topological sort loop.  Modelled from the spec: the source
iterates the external topo_sort crate; each round emits some node all of
whose dependencies are emitted or unknown, and the sort fails exactly when
it gets stuck with nodes remaining. -/
def kahn_loop (parsed : List (Path × MavlinkFile)) :
    Nat → List Path → Bool
  | 0, removed => parsed.all (fun pf => removed.contains pf.1)
  | fuel + 1, removed =>
    match parsed.find? (fun pf =>
        !(removed.contains pf.1) &&
        !(include_blocked parsed removed pf.2.normalised_includes)) with
    | some pf => kahn_loop parsed fuel (pf.1 :: removed)
    | none => parsed.all (fun pf => removed.contains pf.1)

/-- Whether the topological sort of the include graph succeeds. -/
def topo_sort_ok (parsed : List (Path × MavlinkFile)) : Bool :=
  kahn_loop parsed parsed.length []

/-- Cycle detection, parser.rs Parser::detect_cycles: a direct
self-include fails immediately, otherwise a failing topological sort
reports a cycle; either way at most one CycleDetected is recorded. -/
def detect_cycles (st : Parser) : Parser :=
  if st.parsed.any (fun pf => pf.2.normalised_includes.contains pf.1) then
    { st with errors := st.errors ++ [.CycleDetected] }
  else if topo_sort_ok st.parsed then st
  else { st with errors := st.errors ++ [.CycleDetected] }

/-- Finalisation, parser.rs Parser::finish: run cycle detection, then
return the parsed map if no error was accumulated, the error list
otherwise. -/
def Parser.finish (st : Parser) :
    Except (List PError) (List (Path × MavlinkFile)) :=
  let st := detect_cycles st
  if st.errors.isEmpty then .ok st.parsed else .error st.errors

/-! ## Flattener (flatten.rs) -/

namespace Flatten

/-- Flattened module, flatten.rs MavlinkModule: version and dialect from
the root, enums and messages unioned across the include closure. -/
structure MavlinkModule where
  path : Path
  version : Option Nat
  dialect : Option Nat
  enums : List Xml.Enum
  messages : List Xml.Message

/-- Collector, flatten.rs MessageAndEnumCollector.  The enum index map is
realised by searching the enum list by name, preserving order. -/
structure Collector where
  messages : List Xml.Message
  enums : List Xml.Enum
  processed : List Path

end Flatten

/-- Merge one enum into the collection, the enum branch of flatten.rs
flatten_recursive: entries of a same-named enum are appended to the first
occurrence, which keeps its description and dev_status; a new name is
appended at the end. -/
def add_enum : List Xml.Enum → Xml.Enum → List Xml.Enum
  | [], e => [e]
  | e0 :: rest, e =>
    if e0.name = e.name then
      { e0 with entries := e0.entries ++ e.entries } :: rest
    else
      e0 :: add_enum rest e

/-- Body of the include loop of flatten.rs flatten_recursive: look the
include up (the source panics on a miss, impossible after a successful
parse; the model skips), skip it when already processed, and otherwise
mark it processed and descend through the given recursion. -/
def flatten_step (files : List (Path × MavlinkFile))
    (recur : Flatten.Collector → MavlinkFile → Flatten.Collector)
    (collector : Flatten.Collector) (include_ : Path) : Flatten.Collector :=
  match files.lookup include_ with
  | none => collector
  | some file =>
    if collector.processed.contains include_ then collector
    else recur { collector with processed := include_ :: collector.processed } file

/-- Post-order traversal, flatten.rs flatten_recursive: recurse into each
unprocessed include in source order (marking it processed before
descending), then append this module's messages and merge its enums.  The
fuel bounds the recursion; one unit is consumed per descent and each
descent marks a new processed path, so fuel exceeding the file count is
never exhausted. -/
def flatten_recursive (files : List (Path × MavlinkFile)) :
    Nat → Flatten.Collector → MavlinkFile → Flatten.Collector
  | 0, collector, _ => collector
  | fuel + 1, collector, module =>
    let collector := module.normalised_includes.foldl
      (flatten_step files (flatten_recursive files fuel)) collector
    let collector := { collector with
      messages := collector.messages ++ (module.mavlink.messages.getD []) }
    { collector with
      enums := (module.mavlink.enums.getD []).foldl add_enum collector.enums }

/-- Messages contributed by the file recorded at a path (none when the
path is not in the map). -/
def file_messages (files : List (Path × MavlinkFile)) (p : Path) :
    List Xml.Message :=
  match files.lookup p with
  | some file => file.mavlink.messages.getD []
  | none => []

/-- Enums contributed by the file recorded at a path (none when the path
is not in the map). -/
def file_enums (files : List (Path × MavlinkFile)) (p : Path) :
    List Xml.Enum :=
  match files.lookup p with
  | some file => file.mavlink.enums.getD []
  | none => []

/-- Flattening, flatten.rs flatten: traverse from the root and assemble the
module, taking version and dialect from the root.  The source panics when
the root is missing from the map; the model returns none there. -/
def flatten (files : List (Path × MavlinkFile)) (normalised : Path) :
    Option Flatten.MavlinkModule :=
  match files.lookup normalised with
  | none => none
  | some module =>
    let collector := flatten_recursive files (files.length + 1)
      { messages := [], enums := [], processed := [] } module
    some { path := normalised,
           version := module.mavlink.version,
           dialect := module.mavlink.dialect,
           enums := collector.enums,
           messages := collector.messages }

/-- Validated module, model.rs MavlinkModule (the IR). -/
structure MavlinkModule where
  path : Path
  version : Option Nat
  dialect : Option Nat
  enums : List Enum
  messages : List Message

/-- Module normalisation, normaliser.rs Normaliser::normalise_module:
normalise all enums then all messages; produce the IR only when no error
was accumulated. -/
def normalise_module (st : Normaliser) (module : Flatten.MavlinkModule) :
    Except (List NError) MavlinkModule :=
  let (st, enums) := normalise_enums st (module.enums)
  let (st, messages) := normalise_messages st (module.messages)
  if st.errors.isEmpty then
    .ok { path := module.path, version := module.version,
          dialect := module.dialect, enums := enums, messages := messages }
  else
    .error st.errors

/-! ## Concrete instances used by the claims -/

/-- Field with only a name and a type, all ancillary attributes absent. -/
def mk_field (name : String) (type_ : FieldType) : Field :=
  { name := ⟨name⟩, type_ := type_, print_format := none, enum_ := none,
    display := none, units := none, increment := none, min_value := none,
    max_value := none, multiplier := none, default := none, instance_ := none,
    invalid := none, description := none }

/-- The one-field health report message of scenario S1 (and of the source
test test_crc_extra_one_field). -/
def health_report_message : Message :=
  { name := ⟨"UAVIONIX_ADSB_TRANSCEIVER_HEALTH_REPORT"⟩, id := 10003,
    dev_status := none, description := none,
    fields := [mk_field "rfHealth" (.Primitive .Uint8)],
    extension_fields := [] }

/-- Entries with values None, None, 30, None, None of scenario S3. -/
def s3_entries : List Xml.Entry :=
  [Xml.Entry.new_min "TEST_1" none,
   Xml.Entry.new_min "TEST_2" none,
   Xml.Entry.new_min "TEST_3" (some "30"),
   Xml.Entry.new_min "TEST_4" none,
   Xml.Entry.new_min "TEST_5" none]

/-- Bitmask enum entries with one missing value and one unparseable value
literal, the discriminating input for the ordering of the bitmask check
and value derivation. -/
def c3_entries : List Xml.Entry :=
  [Xml.Entry.new_min "FLAG_A" none,
   Xml.Entry.new_min "FLAG_B" (some "badvalue")]

/-- Whether a normalisation outcome is an InvalidEntry error. -/
def is_invalid_entry_error {α : Type} : Except NError α → Bool
  | .error (.InvalidEntry _ _ _) => true
  | _ => false

/-- Single entry whose explicit value literal is the largest u64. -/
def c10_entries : List Xml.Entry :=
  [Xml.Entry.new_min "TEST_MAX" (some "0xFFFFFFFFFFFFFFFF")]

/-- Regular fields of sizes 1, 4, 2, 4 in source order; the two 4-byte
fields are a stability tie. -/
def c4_fields : List Xml.Field :=
  [Xml.Field.new_min "a" "uint8_t",
   Xml.Field.new_min "b" "uint32_t",
   Xml.Field.new_min "c" "uint16_t",
   Xml.Field.new_min "d" "uint32_t"]

/-- Extension fields accompanying c4_fields. -/
def c4_ext_fields : List Xml.Field :=
  [Xml.Field.new_min "x" "int16_t",
   Xml.Field.new_min "y" "uint8_t"]

/-- Fields totalling 803 wire bytes (800 + 2 + 1), scenario S7. -/
def c6_fields : List Xml.Field :=
  [Xml.Field.new_min "a" "uint64_t[100]",
   Xml.Field.new_min "b" "int16_t",
   Xml.Field.new_min "c" "uint8_t"]

/-- CRC-relevant data of a regular field: XML type spelling, field name,
and the array length when present. -/
def crc_key (f : Field) : String × String × Option Nat :=
  (f.type_.primitive_type.as_str, f.name.toStr,
   match f.type_ with
   | .Array _ n => some n
   | .Primitive _ => none)

/-- Normalised regular fields of c4_fields in wire order: descending
primitive size with the source order kept on the 4-byte tie. -/
def c4_sorted_fields : List Field :=
  [mk_field "b" (.Primitive .Uint32),
   mk_field "d" (.Primitive .Uint32),
   mk_field "c" (.Primitive .Uint16),
   mk_field "a" (.Primitive .Uint8)]

/-- Normalised extension fields of c4_ext_fields, in source order. -/
def c4_norm_ext_fields : List Field :=
  [mk_field "x" (.Primitive .Int16),
   mk_field "y" (.Primitive .Uint8)]

/-- Message whose single regular field is a plain uint8_t. -/
def c7_msg_a : Message :=
  { name := ⟨"HB"⟩, id := 7, dev_status := none, description := none,
    fields := [mk_field "v" (.Primitive .Uint8)],
    extension_fields := [] }

/-- Message like c7_msg_a but with the uint8_t_mavlink_version carrier
(same XML spelling uint8_t) and an added extension field. -/
def c7_msg_b : Message :=
  { name := ⟨"HB"⟩, id := 7, dev_status := none, description := none,
    fields := [mk_field "v" (.Primitive .Uint8MavlinkVersion)],
    extension_fields := [mk_field "extra" (.Primitive .Uint32)] }

/-- Document with the given include list and nothing else. -/
def mavlink_with_includes (inc : List String) : Xml.Mavlink :=
  { include_ := inc, version := none, dialect := none,
    enums := none, messages := none }

/-- World of scenario S9: a chain of four files, each including the next. -/
def chain_world : World :=
  { read_file := fun p =>
      if p = "1.xml" then .ok (mavlink_with_includes ["2.xml"])
      else if p = "2.xml" then .ok (mavlink_with_includes ["3.xml"])
      else if p = "3.xml" then .ok (mavlink_with_includes ["4.xml"])
      else if p = "4.xml" then .ok (mavlink_with_includes [])
      else .error .io,
    normalise_path := fun p => some p }

/-- Parser with the recursion limit lowered to 3, as in the source
recursion-limit test. -/
def chain_parser_start : Parser :=
  { Parser.new with max_include_recursion := 3 }

/-- Outcome of parsing the root of the S9 chain with limit 3. -/
def chain_result : Parser :=
  Parser.parse chain_world chain_parser_start "1.xml"

/-- Parser whose inclusion stack has already reached its limit of 3. -/
def full_stack_state : Parser :=
  { parsed := [], errors := [], max_include_recursion := 3,
    inclusion_stack := ["1.xml", "2.xml", "3.xml"] }

/-- One include edge of a parsed map: the file recorded at the first path
lists the second among its canonical includes. -/
def include_edge (parsed : List (Path × MavlinkFile)) (a b : Path) : Prop :=
  ∃ f, (a, f) ∈ parsed ∧ b ∈ f.normalised_includes

/-- Chain of include edges from the first path through the list of
intermediate paths to the last path. -/
def edge_chain (parsed : List (Path × MavlinkFile)) :
    Path → List Path → Path → Prop
  | a, [], b => include_edge parsed a b
  | a, x :: xs, b => include_edge parsed a x ∧ edge_chain parsed x xs b

/-- The include graph of the parsed map has a directed cycle, that is it
is not a DAG. -/
def HasIncludeCycle (parsed : List (Path × MavlinkFile)) : Prop :=
  ∃ p rest, edge_chain parsed p rest p

/-- Parsed map of scenario S8: a.xml includes b.xml and b.xml includes
a.xml. -/
def two_cycle_parsed : List (Path × MavlinkFile) :=
  [("a.xml", { mavlink := mavlink_with_includes ["b.xml"],
               normalised_includes := ["b.xml"] }),
   ("b.xml", { mavlink := mavlink_with_includes ["a.xml"],
               normalised_includes := ["a.xml"] })]

/-- Parser state holding the S8 two-file cycle, ready for finish. -/
def two_cycle_state : Parser :=
  { Parser.new with parsed := two_cycle_parsed }

/-- Parsed map with one file that includes itself. -/
def self_include_parsed : List (Path × MavlinkFile) :=
  [("s.xml", { mavlink := mavlink_with_includes ["s.xml"],
               normalised_includes := ["s.xml"] })]

/-- Parser state holding the self-include, ready for finish. -/
def self_include_state : Parser :=
  { Parser.new with parsed := self_include_parsed }

/-- Leaf file of the S5 diamond, included by both the root and the middle
file; its shared enum carries the description and dev_status that must
survive the merge. -/
def common_mavlink : Xml.Mavlink :=
  { include_ := [], version := some 6, dialect := some 5,
    enums := some
      [{ name := "SHARED", bitmask := none, description := some "common shared",
         dev_status := some (.Wip { description := "", since := some "2024-01" }),
         entries := [Xml.Entry.new_min "SHARED_C" (some "0")] },
       { name := "COMMON_E", bitmask := none, description := none,
         dev_status := none,
         entries := [Xml.Entry.new_min "COMMON_E_1" (some "1")] }],
    messages := some
      [{ name := "COMMON_MSG", id := 1, dev_status := none, description := none,
         fields := [Xml.Field.new_min "f" "uint8_t"], extension_fields := [] }] }

/-- Middle file of the S5 diamond, including the leaf. -/
def mid_mavlink : Xml.Mavlink :=
  { include_ := ["common.xml"], version := some 4, dialect := some 3,
    enums := some
      [{ name := "SHARED", bitmask := none, description := some "mid shared",
         dev_status := none,
         entries := [Xml.Entry.new_min "SHARED_M" (some "1")] },
       { name := "MID_E", bitmask := none, description := none,
         dev_status := none,
         entries := [Xml.Entry.new_min "MID_E_1" (some "1")] }],
    messages := some
      [{ name := "MID_MSG", id := 2, dev_status := none, description := none,
         fields := [Xml.Field.new_min "f" "uint8_t"], extension_fields := [] }] }

/-- Root file of the S5 diamond, including the leaf and the middle file. -/
def root_mavlink : Xml.Mavlink :=
  { include_ := ["common.xml", "mid.xml"], version := some 2, dialect := some 1,
    enums := some
      [{ name := "SHARED", bitmask := none, description := none,
         dev_status := none,
         entries := [Xml.Entry.new_min "SHARED_R" (some "2")] },
       { name := "ROOT_E", bitmask := none, description := none,
         dev_status := none,
         entries := [Xml.Entry.new_min "ROOT_E_1" (some "1")] }],
    messages := some
      [{ name := "ROOT_MSG", id := 3, dev_status := none, description := none,
         fields := [Xml.Field.new_min "f" "uint8_t"], extension_fields := [] }] }

/-- Parsed map of the S5 diamond: the root includes common and mid, and
mid includes common again. -/
def diamond_files : List (Path × MavlinkFile) :=
  [("root.xml", { mavlink := root_mavlink,
                  normalised_includes := ["common.xml", "mid.xml"] }),
   ("mid.xml", { mavlink := mid_mavlink,
                 normalised_includes := ["common.xml"] }),
   ("common.xml", { mavlink := common_mavlink,
                    normalised_includes := [] })]

/-- Expected flattening of the diamond: the contribution of common comes
first and exactly once, then mid, then root; the shared enum is merged
into one with entries in traversal order and the description and
dev_status of its first (common) occurrence. -/
def diamond_expected : Flatten.MavlinkModule :=
  { path := "root.xml", version := some 2, dialect := some 1,
    enums :=
      [{ name := "SHARED", bitmask := none, description := some "common shared",
         dev_status := some (.Wip { description := "", since := some "2024-01" }),
         entries := [Xml.Entry.new_min "SHARED_C" (some "0"),
                     Xml.Entry.new_min "SHARED_M" (some "1"),
                     Xml.Entry.new_min "SHARED_R" (some "2")] },
       { name := "COMMON_E", bitmask := none, description := none,
         dev_status := none,
         entries := [Xml.Entry.new_min "COMMON_E_1" (some "1")] },
       { name := "MID_E", bitmask := none, description := none,
         dev_status := none,
         entries := [Xml.Entry.new_min "MID_E_1" (some "1")] },
       { name := "ROOT_E", bitmask := none, description := none,
         dev_status := none,
         entries := [Xml.Entry.new_min "ROOT_E_1" (some "1")] }],
    messages :=
      [{ name := "COMMON_MSG", id := 1, dev_status := none, description := none,
         fields := [Xml.Field.new_min "f" "uint8_t"], extension_fields := [] },
       { name := "MID_MSG", id := 2, dev_status := none, description := none,
         fields := [Xml.Field.new_min "f" "uint8_t"], extension_fields := [] },
       { name := "ROOT_MSG", id := 3, dev_status := none, description := none,
         fields := [Xml.Field.new_min "f" "uint8_t"], extension_fields := [] }] }

/-! ## Theorems -/

theorem crc16_digest_nil (c : Nat) : crc16_digest c [] = c := rfl

theorem crc16_digest_cons (c b : Nat) (bs : List Nat) :
    crc16_digest c (b :: bs) = crc16_digest (crc16_bits 8 (c ^^^ b % 256)) bs := rfl

theorem strBytes_health_name : strBytes "UAVIONIX_ADSB_TRANSCEIVER_HEALTH_REPORT" =
    [85, 65, 86, 73, 79, 78, 73, 88, 95, 65, 68, 83, 66, 95, 84, 82, 65, 78, 83,
     67, 69, 73, 86, 69, 82, 95, 72, 69, 65, 76, 84, 72, 95, 82, 69, 80, 79, 82,
     84] := rfl

theorem strBytes_space : strBytes " " = [32] := rfl

theorem strBytes_uint8 : strBytes "uint8_t" = [117, 105, 110, 116, 56, 95, 116] := rfl

theorem strBytes_rfHealth : strBytes "rfHealth" =
    [114, 102, 72, 101, 97, 108, 116, 104] := rfl

/-- C1: for the message UAVIONIX_ADSB_TRANSCEIVER_HEALTH_REPORT with the
single regular field rfHealth of type uint8_t and no extension fields,
extra_crc (the folded CRC-16/MCRF4XX over the name, a space, and the type
spelling, name and space of each regular field) returns 4. -/
theorem extra_crc_health_report_eq_4 : health_report_message.extra_crc = 4 := by
  simp [Message.extra_crc, health_report_message, mk_field, extra_crc_field_step,
    FieldType.primitive_type, PrimitiveType.as_str, strBytes_health_name,
    strBytes_space, strBytes_uint8, strBytes_rfHealth,
    crc16_digest_cons, crc16_digest_nil, crc16_bits, crc16_bit_step]

/-- C3 counterexample: for a bitmask enum whose entries include one entry
with no value at all and one with an unparseable value literal, the
normaliser reports BitmaskWithoutValue, not InvalidEntry: the bitmask
check precedes value derivation in normalise_entries. -/
theorem c3_bitmask_beats_invalid_entry :
    normalise_entries ⟨"E"⟩ true c3_entries = .error (.BitmaskWithoutValue ⟨"E"⟩) ∧
    is_invalid_entry_error (normalise_entries ⟨"E"⟩ true c3_entries) = false :=
  ⟨rfl, rfl⟩

/-- C3 amended: the bitmask explicit-value requirement is checked before
entry value derivation, so any bitmask enum containing an entry without an
explicit value fails with BitmaskWithoutValue regardless of whether other
value literals would parse. -/
theorem normalise_entries_bitmask_check_first (enum_ : Ident)
    (entries : List Xml.Entry)
    (h : entries.any (fun entry => entry.value.isNone) = true) :
    normalise_entries enum_ true entries = .error (.BitmaskWithoutValue enum_) := by
  simp [normalise_entries, h]

/-- Witness for the amended C3 theorem at the concrete S4-style input. -/
theorem normalise_entries_bitmask_check_first_witness :
    normalise_entries ⟨"E2"⟩ true c3_entries = .error (.BitmaskWithoutValue ⟨"E2"⟩) :=
  normalise_entries_bitmask_check_first ⟨"E2"⟩ c3_entries (by decide)

theorem parse_uint_lt {radix bound : Nat} {s : String} {v : Nat}
    (h : parse_uint radix bound s = some v) : v < bound := by
  simp only [parse_uint] at h
  split at h
  · exact absurd h (by simp)
  · split at h
    · split at h
      · cases h
        assumption
      · exact absurd h (by simp)
    · exact absurd h (by simp)

theorem checked_pow_lt {b e v : Nat} (h : checked_pow b e = some v) :
    v < 2 ^ 64 := by
  unfold checked_pow at h
  split at h
  · cases h
    assumption
  · exact absurd h (by simp)

/-- Every successfully parsed entry value fits in a u64. -/
theorem parse_entry_value_lt {s : String} {v : Nat}
    (h : parse_entry_value s = .ok v) : v < 2 ^ 64 := by
  simp only [parse_entry_value] at h
  split at h
  · split at h
    · cases h
      exact parse_uint_lt (by assumption)
    · exact absurd h (by simp)
  · split at h
    · split at h
      · cases h
        exact parse_uint_lt (by assumption)
      · exact absurd h (by simp)
    · split at h
      · split at h
        · cases h
          exact parse_uint_lt (by assumption)
        · exact absurd h (by simp)
      · split at h
        · split at h
          · exact absurd h (by simp)
          · split at h
            · exact absurd h (by simp)
            · split at h
              · cases h
                exact checked_pow_lt (by assumption)
              · exact absurd h (by simp)
        · exact absurd h (by simp)

/-- The counter update of the derivation loop overflows u64 at some step
exactly when one of the successfully derived values is the largest u64:
both branches push a value and then compute value + 1 unconditionally. -/
theorem derive_values_overflow_iff (enum_ : Ident) :
    ∀ (entries : List Xml.Entry) (c : Nat) (vs : List Nat), c < 2 ^ 64 →
      derive_values_loop enum_ c entries = .ok vs →
      (derive_values_add_overflows enum_ c entries = true ↔ (2 ^ 64 - 1) ∈ vs)
  | [], c, vs, _, h => by
    cases h
    simp [derive_values_add_overflows]
  | entry :: rest, c, vs, hc, h => by
    rw [derive_values_loop] at h
    rw [derive_values_add_overflows]
    cases hval : entry.value with
    | none =>
      simp only [hval] at h ⊢
      cases hrec : derive_values_loop enum_ ((c + 1) % 2 ^ 64) rest with
      | error e => rw [hrec] at h; exact absurd h (by simp [Except.map])
      | ok vs' =>
        rw [hrec] at h
        simp only [Except.map] at h
        cases h
        have ih := derive_values_overflow_iff enum_ rest ((c + 1) % 2 ^ 64) vs'
          (Nat.mod_lt _ (by positivity)) hrec
        simp only [Bool.or_eq_true, decide_eq_true_eq, ih, List.mem_cons]
        constructor
        · rintro (h1 | h1)
          · exact Or.inl (by omega)
          · exact Or.inr h1
        · rintro (h1 | h1)
          · exact Or.inl (by omega)
          · exact Or.inr h1
    | some v =>
      simp only [hval] at h ⊢
      cases hp : parse_entry_value v with
      | error e => rw [hp] at h; exact absurd h (by simp)
      | ok n =>
        simp only [hp] at h ⊢
        cases hrec : derive_values_loop enum_ ((n + 1) % 2 ^ 64) rest with
        | error e => rw [hrec] at h; exact absurd h (by simp [Except.map])
        | ok vs' =>
          rw [hrec] at h
          simp only [Except.map] at h
          cases h
          have hn := parse_entry_value_lt hp
          have ih := derive_values_overflow_iff enum_ rest ((n + 1) % 2 ^ 64) vs'
            (Nat.mod_lt _ (by positivity)) hrec
          simp only [Bool.or_eq_true, decide_eq_true_eq, ih, List.mem_cons]
          constructor
          · rintro (h1 | h1)
            · exact Or.inl (by omega)
            · exact Or.inr h1
          · rintro (h1 | h1)
            · exact Or.inl (by omega)
            · exact Or.inr h1

/-- C10: the derivation loop computes value + 1 in u64 unconditionally
after every entry, so it is total only while no derived value equals
2 to the 64 minus 1; the literal 0xFFFFFFFFFFFFFFFF parses to exactly
that value and makes the following addition overflow u64 (a panic in a
debug build of the source). -/
theorem derive_values_u64_overflow :
    (∀ (enum_ : Ident) (entries : List Xml.Entry) (c : Nat) (vs : List Nat),
       c < 2 ^ 64 →
       derive_values_loop enum_ c entries = .ok vs →
       (derive_values_add_overflows enum_ c entries = true ↔ (2 ^ 64 - 1) ∈ vs)) ∧
    parse_entry_value "0xFFFFFFFFFFFFFFFF" = .ok (2 ^ 64 - 1) ∧
    derive_enum_entry_values ⟨"TEST"⟩ c10_entries = .ok [2 ^ 64 - 1] ∧
    derive_values_add_overflows ⟨"TEST"⟩ 1 c10_entries = true :=
  ⟨fun enum_ entries => derive_values_overflow_iff enum_ entries,
   by rfl, by rfl, by rfl⟩

/-- Witness for the overflow characterisation of C10 at the concrete
input whose single entry parses to the largest u64. -/
theorem derive_values_u64_overflow_witness :
    derive_values_add_overflows ⟨"T2"⟩ 1 c10_entries = true :=
  (derive_values_u64_overflow.1 ⟨"T2"⟩ c10_entries 1 [2 ^ 64 - 1]
    (by decide) (by rfl)).mpr (by simp)

theorem derive_values_loop_length (enum_ : Ident) :
    ∀ (entries : List Xml.Entry) (c : Nat) (vs : List Nat),
      derive_values_loop enum_ c entries = .ok vs → vs.length = entries.length
  | [], c, vs, h => by cases h; rfl
  | entry :: rest, c, vs, h => by
    rw [derive_values_loop] at h
    cases hval : entry.value with
    | none =>
      simp only [hval] at h
      cases hrec : derive_values_loop enum_ ((c + 1) % 2 ^ 64) rest with
      | error e => rw [hrec] at h; exact absurd h (by simp [Except.map])
      | ok vs' =>
        rw [hrec] at h
        simp only [Except.map] at h
        cases h
        simp [derive_values_loop_length enum_ rest _ vs' hrec]
    | some v =>
      simp only [hval] at h
      cases hp : parse_entry_value v with
      | error e => rw [hp] at h; exact absurd h (by simp)
      | ok n =>
        simp only [hp] at h
        cases hrec : derive_values_loop enum_ ((n + 1) % 2 ^ 64) rest with
        | error e => rw [hrec] at h; exact absurd h (by simp [Except.map])
        | ok vs' =>
          rw [hrec] at h
          simp only [Except.map] at h
          cases h
          simp [derive_values_loop_length enum_ rest _ vs' hrec]

/-- Pointwise characterisation of the derivation loop with the starting
counter explicit: an entry with a parseable explicit value receives that
value; an entry without a value receives the starting counter at index 0
and the previous derived value plus one (in u64) at a later index. -/
theorem derive_values_loop_index (enum_ : Ident) :
    ∀ (entries : List Xml.Entry) (c : Nat) (vs : List Nat),
      derive_values_loop enum_ c entries = .ok vs →
      ∀ (i : Nat) (ent : Xml.Entry), entries[i]? = some ent →
        (∀ s, ent.value = some s →
          ∃ n, parse_entry_value s = .ok n ∧ vs[i]? = some n) ∧
        (ent.value = none → (i = 0 → vs[0]? = some c) ∧
          (∀ j p, i = j + 1 → vs[j]? = some p →
            vs[i]? = some ((p + 1) % 2 ^ 64)))
  | [], c, vs, h, i, ent, hi => by
    simp at hi
  | entry :: rest, c, vs, h, i, ent, hi => by
    rw [derive_values_loop] at h
    cases hval : entry.value with
    | none =>
      simp only [hval] at h
      cases hrec : derive_values_loop enum_ ((c + 1) % 2 ^ 64) rest with
      | error e => rw [hrec] at h; exact absurd h (by simp [Except.map])
      | ok vs' =>
        rw [hrec] at h
        simp only [Except.map] at h
        cases h
        cases i with
        | zero =>
          simp only [List.getElem?_cons_zero, Option.some.injEq] at hi
          subst hi
          refine ⟨fun s hs => absurd hs (by rw [hval]; simp),
            fun _ => ⟨fun _ => by simp, ?_⟩⟩
          intro j p hj
          omega
        | succ k =>
          simp only [List.getElem?_cons_succ] at hi
          have ih := derive_values_loop_index enum_ rest ((c + 1) % 2 ^ 64) vs' hrec k ent hi
          refine ⟨fun s hs => ?_, fun hnone => ⟨fun h0 => by omega, ?_⟩⟩
          · obtain ⟨n, hn, hv⟩ := ih.1 s hs
            exact ⟨n, hn, by simpa using hv⟩
          · intro j p hj hp
            have hjk : j = k := by omega
            subst hjk
            cases j with
            | zero =>
              simp only [List.getElem?_cons_zero, Option.some.injEq] at hp
              subst hp
              simpa using (ih.2 hnone).1 rfl
            | succ m =>
              simp only [List.getElem?_cons_succ] at hp ⊢
              exact (ih.2 hnone).2 m p rfl hp
    | some v =>
      simp only [hval] at h
      cases hp : parse_entry_value v with
      | error e => rw [hp] at h; exact absurd h (by simp)
      | ok n =>
        simp only [hp] at h
        cases hrec : derive_values_loop enum_ ((n + 1) % 2 ^ 64) rest with
        | error e => rw [hrec] at h; exact absurd h (by simp [Except.map])
        | ok vs' =>
          rw [hrec] at h
          simp only [Except.map] at h
          cases h
          cases i with
          | zero =>
            simp only [List.getElem?_cons_zero, Option.some.injEq] at hi
            subst hi
            refine ⟨fun s hs => ?_, fun hnone => absurd hnone (by rw [hval]; simp)⟩
            rw [hval] at hs
            cases hs
            exact ⟨n, hp, by simp⟩
          | succ k =>
            simp only [List.getElem?_cons_succ] at hi
            have ih := derive_values_loop_index enum_ rest ((n + 1) % 2 ^ 64) vs' hrec k ent hi
            refine ⟨fun s hs => ?_, fun hnone => ⟨fun h0 => by omega, ?_⟩⟩
            · obtain ⟨n', hn', hv⟩ := ih.1 s hs
              exact ⟨n', hn', by simpa using hv⟩
            · intro j p hj hpj
              have hjk : j = k := by omega
              subst hjk
              cases j with
              | zero =>
                simp only [List.getElem?_cons_zero, Option.some.injEq] at hpj
                subst hpj
                simpa using (ih.2 hnone).1 rfl
              | succ m =>
                simp only [List.getElem?_cons_succ] at hpj ⊢
                exact (ih.2 hnone).2 m p rfl hpj

/-- C2: for every entry list whose derivation succeeds, the derived values
follow a running counter starting at 1: an entry with a parseable explicit
value takes that value (resetting the counter to value plus one, so the
next valueless entry gets value plus one), and a valueless entry takes the
counter, namely 1 at index 0 and the previous derived value plus one
otherwise; in particular values None, None, 30, None, None derive to
1, 2, 30, 31, 32. -/
theorem derive_entry_values_running_counter :
    (∀ (enum_ : Ident) (entries : List Xml.Entry) (vs : List Nat),
      derive_enum_entry_values enum_ entries = .ok vs →
      vs.length = entries.length ∧
      ∀ (i : Nat) (ent : Xml.Entry), entries[i]? = some ent →
        (∀ s, ent.value = some s →
          ∃ n, parse_entry_value s = .ok n ∧ vs[i]? = some n) ∧
        (ent.value = none → (i = 0 → vs[0]? = some 1) ∧
          (∀ j p, i = j + 1 → vs[j]? = some p →
            vs[i]? = some ((p + 1) % 2 ^ 64)))) ∧
    derive_enum_entry_values ⟨"TEST"⟩ s3_entries = .ok [1, 2, 30, 31, 32] :=
  ⟨fun enum_ entries vs h =>
    ⟨derive_values_loop_length enum_ entries 1 vs h,
     derive_values_loop_index enum_ entries 1 vs h⟩,
   by rfl⟩

/-- Witness for C2 at the S3 input: entry 3 is valueless, so its derived
value is the derived value of entry 2 (which is 30) plus one. -/
theorem derive_entry_values_running_counter_witness :
    ([1, 2, 30, 31, 32] : List Nat)[3]? = some ((30 + 1) % 2 ^ 64) :=
  ((((derive_entry_values_running_counter.1 ⟨"TEST"⟩ s3_entries [1, 2, 30, 31, 32]
      (by rfl)).2 3 (Xml.Entry.new_min "TEST_4" none) (by simp [s3_entries])).2
      (by rfl)).2) 2 30 rfl (by decide)

/-- The CRC contribution of a field depends only on its crc_key: the type
spelling, the field name, and the optional array length. -/
theorem extra_crc_field_step_congr {f1 f2 : Field} (h : crc_key f1 = crc_key f2)
    (c : Nat) : extra_crc_field_step c f1 = extra_crc_field_step c f2 := by
  simp only [crc_key, Prod.mk.injEq] at h
  obtain ⟨h1, h2, h3⟩ := h
  simp only [extra_crc_field_step, h1, h2]
  cases ht1 : f1.type_ with
  | Primitive t1 =>
    cases ht2 : f2.type_ with
    | Primitive t2 => rfl
    | Array t2 n2 => rw [ht1, ht2] at h3; simp at h3
  | Array t1 n1 =>
    cases ht2 : f2.type_ with
    | Primitive t2 => rw [ht1, ht2] at h3; simp at h3
    | Array t2 n2 =>
      rw [ht1, ht2] at h3
      simp only [Option.some.injEq] at h3
      rw [h3]

/-- Folding the CRC over two field lists with equal crc_keys gives equal
results from any starting state. -/
theorem foldl_extra_crc_congr :
    ∀ (l1 l2 : List Field), l1.map crc_key = l2.map crc_key →
      ∀ c, l1.foldl extra_crc_field_step c = l2.foldl extra_crc_field_step c
  | [], [], _, c => rfl
  | [], _ :: _, h, c => by simp at h
  | _ :: _, [], h, c => by simp at h
  | f1 :: t1, f2 :: t2, h, c => by
    simp only [List.map_cons, List.cons.injEq] at h
    rw [List.foldl_cons, List.foldl_cons, extra_crc_field_step_congr h.1 c]
    exact foldl_extra_crc_congr t1 t2 h.2 _

/-- C7: extra_crc ignores extension fields entirely, and depends only on
the message name together with each regular field's XML type spelling,
name and optional array length in final order; the
uint8_t_mavlink_version primitive contributes the spelling uint8_t. -/
theorem extra_crc_stability :
    (∀ (m : Message) (ext : List Field),
       Message.extra_crc { m with extension_fields := ext } = m.extra_crc) ∧
    (∀ m1 m2 : Message, m1.name = m2.name →
       m1.fields.map crc_key = m2.fields.map crc_key →
       m1.extra_crc = m2.extra_crc) ∧
    PrimitiveType.as_str .Uint8MavlinkVersion = "uint8_t" :=
  ⟨fun m ext => rfl,
   fun m1 m2 hn hf => by
     simp only [Message.extra_crc, hn]
     rw [foldl_extra_crc_congr _ _ hf _],
   rfl⟩

/-- Witness for C7: two messages agreeing on name and on the crc_keys of
their regular fields (one uses uint8_t, the other
uint8_t_mavlink_version, and only the second has an extension field) have
the same extra_crc. -/
theorem extra_crc_stability_witness : c7_msg_a.extra_crc = c7_msg_b.extra_crc :=
  extra_crc_stability.2.1 c7_msg_a c7_msg_b rfl (by rfl)

/-- Inserting a field into a list commutes with filtering by an exact sort
key: elements passed over by the insertion have a strictly larger key. -/
theorem filter_key_orderedInsert (k : Nat) (a : Field) :
    ∀ l : List Field,
      (l.orderedInsert field_desc a).filter
          (fun f => decide (field_sort_key f = k)) =
        if field_sort_key a = k then
          a :: l.filter (fun f => decide (field_sort_key f = k))
        else l.filter (fun f => decide (field_sort_key f = k))
  | [] => by
    by_cases hak : field_sort_key a = k <;>
      simp [List.orderedInsert, List.filter, hak]
  | b :: l => by
    rw [List.orderedInsert]
    by_cases hab : field_desc a b
    · rw [if_pos hab]
      by_cases hak : field_sort_key a = k <;>
        simp [List.filter_cons, hak]
    · rw [if_neg hab]
      have hb : field_sort_key a < field_sort_key b := by
        simp only [field_desc, not_le] at hab
        exact hab
      by_cases hak : field_sort_key a = k
      · have hbk : ¬ (field_sort_key b = k) := by omega
        simp [List.filter_cons, hak, hbk, filter_key_orderedInsert k a l]
      · by_cases hbk : field_sort_key b = k <;>
          simp [List.filter_cons, hak, hbk, filter_key_orderedInsert k a l]

/-- Stability of the field reorder: filtering the sorted list by an exact
sort key returns the equally-sized fields in their original order. -/
theorem filter_key_insertionSort (k : Nat) :
    ∀ l : List Field,
      (l.insertionSort field_desc).filter
          (fun f => decide (field_sort_key f = k)) =
        l.filter (fun f => decide (field_sort_key f = k))
  | [] => rfl
  | a :: l => by
    rw [List.insertionSort, filter_key_orderedInsert k a _,
      filter_key_insertionSort k l]
    by_cases hak : field_sort_key a = k <;> simp [List.filter_cons, hak]

/-- Successful runs of the field loop produce exactly the in-order
normalisations of the regular inputs in the first component and of the
extension inputs in the second. -/
theorem fields_loop_ok (st : Normaliser) (message : Ident) :
    ∀ (l : List (Xml.Field × Bool)) (alloc : List Ident) (r e : List Field),
      fields_loop st message alloc l = .ok (r, e) →
      ((l.filter (fun p => !p.2)).map Prod.fst).map (normalise_field st message) =
        r.map .ok ∧
      ((l.filter (fun p => p.2)).map Prod.fst).map (normalise_field st message) =
        e.map .ok
  | [], alloc, r, e, h => by
    cases h
    simp
  | (field, is_ext) :: rest, alloc, r, e, h => by
    rw [fields_loop] at h
    cases hnf : normalise_field st message field with
    | error err => rw [hnf] at h; exact absurd h (by simp)
    | ok f =>
      simp only [hnf] at h
      split at h
      · exact absurd h (by simp)
      · cases hrec : fields_loop st message (f.name :: alloc) rest with
        | error err =>
          simp only [hrec] at h
          exact absurd h (by simp)
        | ok re =>
          obtain ⟨r0, e0⟩ := re
          simp only [hrec] at h
          have ih := fields_loop_ok st message rest (f.name :: alloc) r0 e0 hrec
          cases is_ext with
          | true =>
            simp only [Except.ok.injEq] at h
            cases h
            simp [List.filter_cons, ih.1, ih.2, hnf]
          | false =>
            simp only [Except.ok.injEq] at h
            cases h
            simp [List.filter_cons, ih.1, ih.2, hnf]

/-- The regular half of the tagged input of normalise_fields. -/
theorem tagged_filter_regular (fields ext : List Xml.Field) :
    ((fields.map (fun f => (f, false)) ++ ext.map (fun f => (f, true))).filter
      (fun p => !p.2)).map Prod.fst = fields := by
  simp [List.filter_append, List.filter_map, Function.comp_def]

/-- The extension half of the tagged input of normalise_fields. -/
theorem tagged_filter_extension (fields ext : List Xml.Field) :
    ((fields.map (fun f => (f, false)) ++ ext.map (fun f => (f, true))).filter
      (fun p => p.2)).map Prod.fst = ext := by
  simp [List.filter_append, List.filter_map, Function.comp_def]

/-- C4: when normalise_fields succeeds, the regular IR fields are the
source-order normalised regular fields stably sorted by descending
primitive size (sizes are pairwise non-increasing, and filtering by any
exact size returns the source order), while the extension IR fields are
exactly the source-order normalised extension fields, never moved into
the regular list. -/
theorem normalise_fields_wire_order :
    ∀ (st : Normaliser) (message : Ident) (fields ext : List Xml.Field)
      (rf ef : List Field),
      normalise_fields st message fields ext = .ok (rf, ef) →
      ∃ nf : List Field,
        fields.map (normalise_field st message) = nf.map .ok ∧
        rf = nf.insertionSort field_desc ∧
        rf.Pairwise (fun a b => field_sort_key b ≤ field_sort_key a) ∧
        (∀ k, rf.filter (fun f => decide (field_sort_key f = k)) =
              nf.filter (fun f => decide (field_sort_key f = k))) ∧
        ext.map (normalise_field st message) = ef.map .ok := by
  intro st message fields ext rf ef h
  rw [normalise_fields] at h
  cases hl : fields_loop st message []
      (fields.map (fun f => (f, false)) ++ ext.map (fun f => (f, true))) with
  | error err => rw [hl] at h; exact absurd h (by simp)
  | ok re =>
    obtain ⟨r0, e0⟩ := re
    rw [hl] at h
    simp only [gt_iff_lt] at h
    split at h
    · exact absurd h (by simp)
    · simp only [Except.ok.injEq, Prod.mk.injEq] at h
      obtain ⟨hrf, hef⟩ := h
      have hio := fields_loop_ok st message _ [] r0 e0 hl
      rw [tagged_filter_regular] at hio
      rw [tagged_filter_extension] at hio
      refine ⟨r0, hio.1, hrf.symm, ?_, ?_, hef ▸ hio.2⟩
      · rw [← hrf]
        exact List.sorted_insertionSort field_desc r0
      · intro k
        rw [← hrf]
        exact filter_key_insertionSort k r0

/-- Witness for C4 at the concrete field lists with a 4-byte tie. -/
theorem normalise_fields_wire_order_witness :
    ∃ nf : List Field,
      c4_fields.map (normalise_field Normaliser.default ⟨"MSG"⟩) = nf.map .ok ∧
      c4_sorted_fields = nf.insertionSort field_desc ∧
      c4_sorted_fields.Pairwise (fun a b => field_sort_key b ≤ field_sort_key a) ∧
      (∀ k, c4_sorted_fields.filter (fun f => decide (field_sort_key f = k)) =
            nf.filter (fun f => decide (field_sort_key f = k))) ∧
      c4_ext_fields.map (normalise_field Normaliser.default ⟨"MSG"⟩) =
        c4_norm_ext_fields.map .ok :=
  normalise_fields_wire_order Normaliser.default ⟨"MSG"⟩ c4_fields c4_ext_fields
    c4_sorted_fields c4_norm_ext_fields (by rfl)

/-- Enum reference resolution never fails with MessageIsTooBig. -/
theorem resolve_enum_reference_not_too_big {st : Normaliser} {e : String}
    {t : FieldType} {m f : Ident} {err : NError}
    (h : resolve_enum_reference st e t m f = .error err)
    (m' : Ident) (s mx : Nat) : err ≠ .MessageIsTooBig m' s mx := by
  simp only [resolve_enum_reference] at h
  repeat' split at h
  all_goals (cases h <;> simp)

/-- Field normalisation never fails with MessageIsTooBig. -/
theorem normalise_field_not_too_big {st : Normaliser} {m : Ident}
    {fld : Xml.Field} {err : NError}
    (h : normalise_field st m fld = .error err)
    (m' : Ident) (s mx : Nat) : err ≠ .MessageIsTooBig m' s mx := by
  rw [normalise_field] at h
  cases hi : ident_from_str fld.name with
  | none =>
    simp only [hi] at h
    cases h
    simp
  | some name =>
    simp only [hi] at h
    cases ht : field_type_from_str fld.type_ with
    | none =>
      simp only [ht] at h
      cases h
      simp
    | some type_ =>
      simp only [ht] at h
      cases he : fld.enum_ with
      | none =>
        simp only [he] at h
        exact absurd h (by simp)
      | some e =>
        simp only [he] at h
        cases hr : resolve_enum_reference st e type_ m name with
        | error err2 =>
          simp only [hr] at h
          cases h
          exact resolve_enum_reference_not_too_big hr m' s mx
        | ok r =>
          simp only [hr] at h
          exact absurd h (by simp)

/-- The field loop never fails with MessageIsTooBig; that error can only
come from the final wire size check. -/
theorem fields_loop_not_too_big (st : Normaliser) (message : Ident) :
    ∀ (l : List (Xml.Field × Bool)) (alloc : List Ident) (err : NError),
      fields_loop st message alloc l = .error err →
      ∀ (m' : Ident) (s mx : Nat), err ≠ .MessageIsTooBig m' s mx
  | [], alloc, err, h => by exact absurd h (by simp [fields_loop])
  | (field, is_ext) :: rest, alloc, err, h => by
    rw [fields_loop] at h
    cases hnf : normalise_field st message field with
    | error e2 =>
      simp only [hnf] at h
      cases h
      exact normalise_field_not_too_big hnf
    | ok f =>
      simp only [hnf] at h
      split at h
      · cases h
        simp
      · cases hrec : fields_loop st message (f.name :: alloc) rest with
        | error e2 =>
          simp only [hrec] at h
          cases h
          exact fields_loop_not_too_big st message rest _ _ hrec
        | ok re =>
          obtain ⟨r0, e0⟩ := re
          simp only [hrec] at h
          exact absurd h (by simp)

/-- The stable reorder preserves the total wire size. -/
theorem sum_wire_insertionSort (l : List Field) :
    ((l.insertionSort field_desc).map (fun f => f.type_.wire_size)).sum =
      (l.map (fun f => f.type_.wire_size)).sum :=
  ((List.perm_insertionSort field_desc l).map _).sum_eq

/-- C6: a successfully normalised message has wire size at most 255;
a MessageIsTooBig error always carries a size above 255, the maximum 255,
and the offending message name; when the field loop succeeds but the
total wire size of all fields (regular and extension) exceeds 255,
normalise_fields fails with exactly MessageIsTooBig of that size and 255;
and the concrete 803-byte message yields MessageIsTooBig with size 803
and max_size 255. -/
theorem message_is_too_big_exactly :
    (∀ (st st2 : Normaliser) (xm : Xml.Message) (m : Message),
       normalise_message st xm = (st2, .ok m) → m.wire_size ≤ 255) ∧
    (∀ (st : Normaliser) (message : Ident) (fields ext : List Xml.Field)
       (m : Ident) (s mx : Nat),
       normalise_fields st message fields ext = .error (.MessageIsTooBig m s mx) →
       255 < s ∧ mx = 255 ∧ m = message) ∧
    (∀ (st : Normaliser) (message : Ident) (fields ext : List Xml.Field)
       (r0 e0 : List Field),
       fields_loop st message []
         (fields.map (fun f => (f, false)) ++ ext.map (fun f => (f, true))) =
           .ok (r0, e0) →
       255 < (((r0 ++ e0).map (fun f => f.type_.wire_size)).sum) →
       normalise_fields st message fields ext =
         .error (.MessageIsTooBig message
           (((r0 ++ e0).map (fun f => f.type_.wire_size)).sum) 255)) ∧
    normalise_fields Normaliser.default ⟨"BIG"⟩ c6_fields [] =
      .error (.MessageIsTooBig ⟨"BIG"⟩ 803 255) := by
  have hsum : ∀ (r0 e0 : List Field),
      (((r0.insertionSort field_desc) ++ e0).map
        (fun f => f.type_.wire_size)).sum =
      ((r0 ++ e0).map (fun f => f.type_.wire_size)).sum := by
    intro r0 e0
    simp only [List.map_append, List.sum_append, sum_wire_insertionSort]
  have hfields : ∀ (st : Normaliser) (message : Ident)
      (fields ext : List Xml.Field) (rf ef : List Field),
      normalise_fields st message fields ext = .ok (rf, ef) →
      ((rf ++ ef).map (fun f => f.type_.wire_size)).sum ≤ 255 := by
    intro st message fields ext rf ef h
    rw [normalise_fields] at h
    cases hl : fields_loop st message []
        (fields.map (fun f => (f, false)) ++ ext.map (fun f => (f, true))) with
    | error err => rw [hl] at h; exact absurd h (by simp)
    | ok re =>
      obtain ⟨r0, e0⟩ := re
      rw [hl] at h
      simp only [gt_iff_lt] at h
      split at h
      · exact absurd h (by simp)
      · simp only [Except.ok.injEq, Prod.mk.injEq] at h
        obtain ⟨hrf, hef⟩ := h
        subst hrf
        subst hef
        omega
  refine ⟨?_, ?_, ?_, by rfl⟩
  · intro st st2 xm m h
    rw [normalise_message] at h
    cases hi : ident_from_str xm.name with
    | none => simp only [hi] at h; exact absurd h (by simp)
    | some name =>
      simp only [hi] at h
      split at h
      · exact absurd h (by simp)
      · split at h
        · exact absurd h (by simp)
        · split at h
          · exact absurd h (by simp)
          · cases hnf : normalise_fields
                { st with
                  messages := _,
                  allocated_message_ids := _ } name xm.fields xm.extension_fields with
            | error err => rw [hnf] at h; simp only [hnf] at h; exact absurd h (by simp)
            | ok fe =>
              obtain ⟨rf, ef⟩ := fe
              simp only [hnf] at h
              simp only [Prod.mk.injEq, Except.ok.injEq] at h
              obtain ⟨-, hm⟩ := h
              subst hm
              exact hfields _ _ _ _ _ _ hnf
  · intro st message fields ext m s mx h
    rw [normalise_fields] at h
    cases hl : fields_loop st message []
        (fields.map (fun f => (f, false)) ++ ext.map (fun f => (f, true))) with
    | error err =>
      rw [hl] at h
      simp only [Except.error.injEq] at h
      exact absurd h (fields_loop_not_too_big st message _ _ _ hl m s mx)
    | ok re =>
      obtain ⟨r0, e0⟩ := re
      rw [hl] at h
      simp only [gt_iff_lt] at h
      split at h
      · simp only [Except.error.injEq, NError.MessageIsTooBig.injEq] at h
        obtain ⟨hm, hs, hmx⟩ := h
        refine ⟨?_, hmx.symm, hm.symm⟩
        omega
      · exact absurd h (by simp)
  · intro st message fields ext r0 e0 hl hbig
    rw [normalise_fields, hl]
    simp only [gt_iff_lt]
    rw [if_pos (by rw [hsum]; exact hbig)]
    rw [hsum]

/-- Witness for C6: the MessageIsTooBig error produced by the 803-byte
message carries a size above 255 and the maximum 255. -/
theorem message_is_too_big_exactly_witness :
    255 < 803 ∧ (255 : Nat) = 255 ∧ (⟨"BIG"⟩ : Ident) = ⟨"BIG"⟩ :=
  message_is_too_big_exactly.2.1 Normaliser.default ⟨"BIG"⟩ c6_fields []
    ⟨"BIG"⟩ 803 255 (by rfl)

/-- Merging one enum into a collection either extends the entry list of
the first same-named enum or appends the enum at the end, from the point
of view of a search by name. -/
theorem find_add_enum (n : String) :
    ∀ (acc : List Xml.Enum) (e : Xml.Enum),
      (add_enum acc e).find? (fun x => x.name == n) =
        if e.name = n then
          match acc.find? (fun x => x.name == n) with
          | some a => some { a with entries := a.entries ++ e.entries }
          | none => some e
        else acc.find? (fun x => x.name == n)
  | [], e => by
    rw [add_enum]
    by_cases hen : e.name = n
    · rw [if_pos hen]
      simp [List.find?_cons_of_pos, hen]
    · rw [if_neg hen]
      simp [List.find?_cons_of_neg, hen]
  | a0 :: rest, e => by
    rw [add_enum]
    by_cases h0e : a0.name = e.name
    · rw [if_pos h0e]
      by_cases hen : e.name = n
      · have h0n : a0.name = n := h0e.trans hen
        rw [if_pos hen]
        rw [List.find?_cons_of_pos _ (by simp [h0n]),
          List.find?_cons_of_pos _ (by simp [h0n])]
      · have h0n : ¬ a0.name = n := fun h => hen (h0e.symm.trans h)
        rw [if_neg hen]
        rw [List.find?_cons_of_neg _ (by simp [h0n]),
          List.find?_cons_of_neg _ (by simp [h0n])]
    · rw [if_neg h0e]
      by_cases h0n : a0.name = n
      · have hen : ¬ e.name = n := fun h => h0e (h0n.trans h.symm)
        rw [if_neg hen]
        rw [List.find?_cons_of_pos _ (by simp [h0n]),
          List.find?_cons_of_pos _ (by simp [h0n])]
      · rw [List.find?_cons_of_neg _ (by simp [h0n]), find_add_enum n rest e]
        by_cases hen : e.name = n
        · rw [if_pos hen, if_pos hen,
            List.find?_cons_of_neg _ (by simp [h0n])]
        · rw [if_neg hen, if_neg hen,
            List.find?_cons_of_neg _ (by simp [h0n])]

/-- Folding a sequence of raw enums into a collection: the enum found
under a name afterwards keeps every attribute of its first occurrence
(in the collection, else in the sequence) and carries the concatenation
of all same-named entry lists in sequence order. -/
theorem foldl_add_enum_find (n : String) :
    ∀ (es acc : List Xml.Enum),
      (es.foldl add_enum acc).find? (fun x => x.name == n) =
        match acc.find? (fun x => x.name == n) with
        | some a => some { a with entries := a.entries ++
            ((es.filter (fun x => x.name == n)).map (fun x => x.entries)).flatten }
        | none =>
          match (es.filter (fun x => x.name == n)).head? with
          | none => none
          | some e0 => some { e0 with entries :=
              ((es.filter (fun x => x.name == n)).map (fun x => x.entries)).flatten }
  | [], acc => by
    cases hacc : acc.find? (fun x => x.name == n) with
    | none => simp [hacc]
    | some a => simp [hacc]
  | e :: es', acc => by
    rw [List.foldl_cons, foldl_add_enum_find n es' (add_enum acc e),
      find_add_enum n acc e]
    by_cases hen : e.name = n
    · rw [if_pos hen, List.filter_cons_of_pos (by simp [hen])]
      cases hacc : acc.find? (fun x => x.name == n) with
      | some a => simp [hacc, List.append_assoc]
      | none => simp [hacc]
    · rw [if_neg hen, List.filter_cons_of_neg (by simp [hen])]

/-- Names of the collection after one merge: unchanged when the name is
already present, appended otherwise. -/
theorem add_enum_names (e : Xml.Enum) :
    ∀ acc : List Xml.Enum,
      (add_enum acc e).map (fun x => x.name) =
        if e.name ∈ acc.map (fun x => x.name) then acc.map (fun x => x.name)
        else acc.map (fun x => x.name) ++ [e.name]
  | [] => by simp [add_enum]
  | a0 :: rest => by
    rw [add_enum]
    by_cases h0e : a0.name = e.name
    · rw [if_pos h0e]
      rw [if_pos (by simp [List.mem_cons]; exact Or.inl h0e.symm)]
      simp
    · rw [if_neg h0e]
      rw [List.map_cons, List.map_cons, add_enum_names e rest]
      have hne : ¬ e.name = a0.name := fun h => h0e h.symm
      by_cases hmem : e.name ∈ rest.map (fun x => x.name)
      · rw [if_pos hmem, if_pos (by simp [List.mem_cons, hmem])]
      · rw [if_neg hmem, if_neg (by simp [List.mem_cons, hne, hmem])]
        rfl

/-- Duplicate suppression of the merge: the collection built by folding
any sequence of raw enums holds at most one enum per name. -/
theorem foldl_add_enum_names_nodup :
    ∀ (es acc : List Xml.Enum),
      ((acc.map (fun x => x.name)).Nodup) →
      (((es.foldl add_enum acc).map (fun x => x.name))).Nodup
  | [], _, h => h
  | e :: es', acc, h => by
    rw [List.foldl_cons]
    refine foldl_add_enum_names_nodup es' (add_enum acc e) ?_
    rw [add_enum_names]
    by_cases hmem : e.name ∈ acc.map (fun x => x.name)
    · rwa [if_pos hmem]
    · rw [if_neg hmem]
      exact List.Nodup.append h (List.nodup_singleton _)
        (fun a ha hb => hmem (by rwa [List.mem_singleton.mp hb] at ha))

/-- A contains check returning false refutes membership (lawful BEq). -/
theorem contains_false_not_mem {α : Type} [BEq α] [LawfulBEq α]
    {l : List α} {a : α} (h : l.contains a = false) : a ∉ l := by
  intro hmem
  simp only [List.contains] at h
  rw [List.elem_eq_true_of_mem hmem] at h
  cases h

/-- Include-loop invariant of the flattening traversal, for any recursion
depth: the loop extends the processed list by a block of fresh, pairwise
distinct paths and appends the contributions (messages appended, enums
merged) of a duplicate-free sequence of known files, in traversal order. -/
theorem flatten_loop_spec (files : List (Path × MavlinkFile)) (fuel : Nat)
    (hrec : ∀ (c : Flatten.Collector) (file : MavlinkFile) (i : Path),
      files.lookup i = some file →
      c.processed.contains i = false →
      ∃ (order newly : List Path),
        (flatten_recursive files fuel
            { c with processed := i :: c.processed } file).processed =
          newly ++ c.processed ∧
        newly.Nodup ∧
        (∀ p ∈ newly, p ∉ c.processed) ∧
        order.Nodup ∧
        (∀ p ∈ order, p ∈ newly) ∧
        (∀ p ∈ order, (files.lookup p).isSome = true) ∧
        (flatten_recursive files fuel
            { c with processed := i :: c.processed } file).messages =
          c.messages ++ (order.map (file_messages files)).flatten ∧
        (flatten_recursive files fuel
            { c with processed := i :: c.processed } file).enums =
          (order.map (file_enums files)).flatten.foldl add_enum c.enums) :
    ∀ (includes : List Path) (c : Flatten.Collector),
      ∃ (order newly : List Path),
        (includes.foldl
            (flatten_step files (flatten_recursive files fuel)) c).processed =
          newly ++ c.processed ∧
        newly.Nodup ∧
        (∀ p ∈ newly, p ∉ c.processed) ∧
        order.Nodup ∧
        (∀ p ∈ order, p ∈ newly) ∧
        (∀ p ∈ order, (files.lookup p).isSome = true) ∧
        (includes.foldl
            (flatten_step files (flatten_recursive files fuel)) c).messages =
          c.messages ++ (order.map (file_messages files)).flatten ∧
        (includes.foldl
            (flatten_step files (flatten_recursive files fuel)) c).enums =
          (order.map (file_enums files)).flatten.foldl add_enum c.enums
  | [], c =>
    ⟨[], [], rfl, List.nodup_nil, by simp, List.nodup_nil, by simp, by simp,
     by simp, by simp⟩
  | i :: rest, c => by
    rw [List.foldl_cons]
    have hstep : ∀ c1 : Flatten.Collector,
        flatten_step files (flatten_recursive files fuel) c i = c1 →
        (∃ (order1 newly1 : List Path),
          c1.processed = newly1 ++ c.processed ∧
          newly1.Nodup ∧
          (∀ p ∈ newly1, p ∉ c.processed) ∧
          order1.Nodup ∧
          (∀ p ∈ order1, p ∈ newly1) ∧
          (∀ p ∈ order1, (files.lookup p).isSome = true) ∧
          c1.messages = c.messages ++ (order1.map (file_messages files)).flatten ∧
          c1.enums = (order1.map (file_enums files)).flatten.foldl add_enum c.enums) := by
      intro c1 hc1
      rw [flatten_step] at hc1
      cases hlk : files.lookup i with
      | none =>
        simp only [hlk] at hc1
        subst hc1
        exact ⟨[], [], rfl, List.nodup_nil, by simp, List.nodup_nil, by simp,
          by simp, by simp, by simp⟩
      | some file =>
        simp only [hlk] at hc1
        by_cases hproc : c.processed.contains i = true
        · rw [if_pos hproc] at hc1
          subst hc1
          exact ⟨[], [], rfl, List.nodup_nil, by simp, List.nodup_nil, by simp,
            by simp, by simp, by simp⟩
        · rw [if_neg hproc] at hc1
          subst hc1
          exact hrec c file i hlk (by revert hproc; cases c.processed.contains i <;> simp)
    obtain ⟨order1, newly1, hp1, hnd1, hfresh1, hond1, hsub1, hlk1, hm1, he1⟩ :=
      hstep _ rfl
    obtain ⟨order2, newly2, hp2, hnd2, hfresh2, hond2, hsub2, hlk2, hm2, he2⟩ :=
      flatten_loop_spec files fuel hrec rest
        (flatten_step files (flatten_recursive files fuel) c i)
    refine ⟨order1 ++ order2, newly2 ++ newly1, ?_, ?_, ?_, ?_, ?_, ?_, ?_, ?_⟩
    · rw [hp2, hp1, List.append_assoc]
    · refine List.Nodup.append hnd2 hnd1 ?_
      intro a ha hb
      have := hfresh2 a ha
      rw [hp1] at this
      exact this (List.mem_append_left _ hb)
    · intro p hp
      rcases List.mem_append.mp hp with h2 | h1
      · have := hfresh2 p h2
        rw [hp1] at this
        exact fun hc => this (List.mem_append_right _ hc)
      · exact hfresh1 p h1
    · refine List.Nodup.append hond1 hond2 ?_
      intro a ha hb
      have h2 := hfresh2 a (hsub2 a hb)
      rw [hp1] at h2
      exact h2 (List.mem_append_left _ (hsub1 a ha))
    · intro p hp
      rcases List.mem_append.mp hp with h1 | h2
      · exact List.mem_append_right _ (hsub1 p h1)
      · exact List.mem_append_left _ (hsub2 p h2)
    · intro p hp
      rcases List.mem_append.mp hp with h1 | h2
      · exact hlk1 p h1
      · exact hlk2 p h2
    · rw [hm2, hm1, List.map_append, List.flatten_append, List.append_assoc]
    · rw [he2, he1, List.map_append, List.flatten_append, List.foldl_append]

/-- Post-order decomposition of the flattening traversal: one recursive
call contributes the subtree of its includes in traversal order followed
by the module's own messages and enums (leaves first, the module itself
last), each contributing file at most once, and marks exactly the fresh
paths processed. -/
theorem flatten_recursive_spec (files : List (Path × MavlinkFile)) :
    ∀ (fuel : Nat) (c : Flatten.Collector) (module : MavlinkFile),
      ∃ (order newly : List Path),
        (flatten_recursive files (fuel + 1) c module).processed =
          newly ++ c.processed ∧
        newly.Nodup ∧
        (∀ p ∈ newly, p ∉ c.processed) ∧
        order.Nodup ∧
        (∀ p ∈ order, p ∈ newly) ∧
        (∀ p ∈ order, (files.lookup p).isSome = true) ∧
        (flatten_recursive files (fuel + 1) c module).messages =
          c.messages ++ (order.map (file_messages files)).flatten ++
            (module.mavlink.messages.getD []) ∧
        (flatten_recursive files (fuel + 1) c module).enums =
          ((order.map (file_enums files)).flatten ++
            (module.mavlink.enums.getD [])).foldl add_enum c.enums := by
  intro fuel
  induction fuel with
  | zero =>
    intro c module
    have hloop := flatten_loop_spec files 0
      (fun c file i hlk hproc =>
        ⟨[], [i], rfl, List.nodup_singleton i, ?_, List.nodup_nil, by simp,
         by simp, by simp [flatten_recursive], by simp [flatten_recursive]⟩)
      module.normalised_includes c
    · obtain ⟨order, newly, hp, hnd, hfresh, hond, hsub, hlk, hm, he⟩ := hloop
      exact ⟨order, newly, hp, hnd, hfresh, hond, hsub, hlk,
        by rw [flatten_recursive]; simp only []; rw [hm],
        by rw [flatten_recursive]; simp only []; rw [he, List.foldl_append]⟩
    · intro p hp
      rw [List.mem_singleton.mp hp]
      exact contains_false_not_mem hproc
  | succ k ih =>
    intro c module
    have hrec : ∀ (c : Flatten.Collector) (file : MavlinkFile) (i : Path),
        files.lookup i = some file →
        c.processed.contains i = false →
        ∃ (order newly : List Path),
          (flatten_recursive files (k + 1)
              { c with processed := i :: c.processed } file).processed =
            newly ++ c.processed ∧
          newly.Nodup ∧
          (∀ p ∈ newly, p ∉ c.processed) ∧
          order.Nodup ∧
          (∀ p ∈ order, p ∈ newly) ∧
          (∀ p ∈ order, (files.lookup p).isSome = true) ∧
          (flatten_recursive files (k + 1)
              { c with processed := i :: c.processed } file).messages =
            c.messages ++ (order.map (file_messages files)).flatten ∧
          (flatten_recursive files (k + 1)
              { c with processed := i :: c.processed } file).enums =
            (order.map (file_enums files)).flatten.foldl add_enum c.enums := by
      intro c file i hlk hproc
      have hi_not_mem : i ∉ c.processed := contains_false_not_mem hproc
      obtain ⟨order0, newly0, hp0, hnd0, hfresh0, hond0, hsub0, hlk0, hm0, he0⟩ :=
        ih { c with processed := i :: c.processed } file
      have hi_not_newly : i ∉ newly0 := fun hmem =>
        (hfresh0 i hmem) (List.mem_cons_self i c.processed)
      refine ⟨order0 ++ [i], newly0 ++ [i], ?_, ?_, ?_, ?_, ?_, ?_, ?_, ?_⟩
      · rw [hp0]
        simp [List.append_assoc]
      · exact List.Nodup.append hnd0 (List.nodup_singleton i)
          (fun a ha hb => hi_not_newly (by rwa [List.mem_singleton.mp hb] at ha))
      · intro p hp
        rcases List.mem_append.mp hp with h0 | h1
        · exact fun hc => (hfresh0 p h0) (List.mem_cons_of_mem i hc)
        · rw [List.mem_singleton.mp h1]
          exact hi_not_mem
      · refine List.Nodup.append hond0 (List.nodup_singleton i) ?_
        intro a ha hb
        exact hi_not_newly (by rw [← List.mem_singleton.mp hb]; exact hsub0 a ha)
      · intro p hp
        rcases List.mem_append.mp hp with h0 | h1
        · exact List.mem_append_left _ (hsub0 p h0)
        · exact List.mem_append_right _ h1
      · intro p hp
        rcases List.mem_append.mp hp with h0 | h1
        · exact hlk0 p h0
        · rw [List.mem_singleton.mp h1, hlk]
          rfl
      · rw [hm0]
        simp [file_messages, hlk, List.append_assoc]
      · rw [he0, List.map_append, List.flatten_append, List.foldl_append]
        simp [file_enums, hlk]
    have hloop := flatten_loop_spec files (k + 1) hrec module.normalised_includes c
    obtain ⟨order, newly, hp, hnd, hfresh, hond, hsub, hlk, hm, he⟩ := hloop
    exact ⟨order, newly, hp, hnd, hfresh, hond, hsub, hlk,
      by rw [flatten_recursive]; simp only []; rw [hm],
      by rw [flatten_recursive]; simp only []; rw [he, List.foldl_append]⟩

/-- C5: universally, flattening from any root of any parsed map is the
post-order traversal with duplicate suppression: there is a duplicate-free
traversal order of known files whose message contributions are
concatenated leaves first with the root's own messages last, and whose
enum contributions are merged by the fold; in that merge, for every name,
the collection holds at most one enum of that name, and the enum found
under a name keeps every attribute (description and dev_status included)
of the first same-named occurrence in traversal order, with the entries of
all same-named occurrences concatenated in traversal order.  In
particular, the S5 diamond flattens to exactly the expected module:
everything from common appears once and first, then mid, then root, and
the enum defined in all three files is merged with entries in order
common, mid, root. -/
theorem flatten_post_order_and_merge :
    (∀ (files : List (Path × MavlinkFile)) (root : Path) (module : MavlinkFile),
       files.lookup root = some module →
       ∃ (order : List Path) (m : Flatten.MavlinkModule),
         flatten files root = some m ∧
         m.path = root ∧
         m.version = module.mavlink.version ∧
         m.dialect = module.mavlink.dialect ∧
         order.Nodup ∧
         (∀ p ∈ order, (files.lookup p).isSome = true) ∧
         m.messages = (order.map (file_messages files)).flatten ++
           (module.mavlink.messages.getD []) ∧
         m.enums = ((order.map (file_enums files)).flatten ++
           (module.mavlink.enums.getD [])).foldl add_enum []) ∧
    (∀ (es : List Xml.Enum) (n : String),
       (es.foldl add_enum []).find? (fun e => e.name == n) =
         match (es.filter (fun e => e.name == n)).head? with
         | none => none
         | some e0 => some { e0 with entries :=
             ((es.filter (fun e => e.name == n)).map (fun e => e.entries)).flatten }) ∧
    (∀ es : List Xml.Enum,
       ((es.foldl add_enum []).map (fun e => e.name)).Nodup) ∧
    flatten diamond_files "root.xml" = some diamond_expected ∧
    diamond_expected.enums.countP (fun e => e.name == "SHARED") = 1 ∧
    diamond_expected.enums.map (fun e => e.name) =
      ["SHARED", "COMMON_E", "MID_E", "ROOT_E"] ∧
    diamond_expected.enums.head?.map
        (fun e => (e.description, e.entries.map (fun x => x.name))) =
      some (some "common shared", ["SHARED_C", "SHARED_M", "SHARED_R"]) ∧
    diamond_expected.enums.head?.map (fun e => e.dev_status) =
      some (some (.Wip { description := "", since := some "2024-01" })) ∧
    diamond_expected.messages.map (fun m => m.name) =
      ["COMMON_MSG", "MID_MSG", "ROOT_MSG"] ∧
    diamond_expected.messages.countP (fun m => m.name == "COMMON_MSG") = 1 ∧
    diamond_expected.version = some 2 ∧
    diamond_expected.dialect = some 1 := by
  refine ⟨?_, ?_, ?_, by rfl, by rfl, by rfl, by rfl, by rfl, by rfl, by rfl,
    by rfl, by rfl⟩
  · intro files root module h
    obtain ⟨order, newly, hp, hnd, hfresh, hond, hsub, hlk, hm, he⟩ :=
      flatten_recursive_spec files files.length
        { messages := [], enums := [], processed := [] } module
    refine ⟨order,
      { path := root, version := module.mavlink.version,
        dialect := module.mavlink.dialect,
        enums := (flatten_recursive files (files.length + 1)
          { messages := [], enums := [], processed := [] } module).enums,
        messages := (flatten_recursive files (files.length + 1)
          { messages := [], enums := [], processed := [] } module).messages },
      ?_, rfl, rfl, rfl, hond, hlk, ?_, ?_⟩
    · simp only [flatten, h]
    · simpa using hm
    · exact he
  · intro es n
    have h := foldl_add_enum_find n es []
    simpa using h
  · intro es
    exact foldl_add_enum_names_nodup es [] List.nodup_nil

/-- Witness for C5: the universal post-order decomposition applied at the
concrete diamond. -/
theorem flatten_post_order_and_merge_witness :
    ∃ (order : List Path) (m : Flatten.MavlinkModule),
      flatten diamond_files "root.xml" = some m ∧
      m.path = "root.xml" ∧
      m.version = root_mavlink.version ∧
      m.dialect = root_mavlink.dialect ∧
      order.Nodup ∧
      (∀ p ∈ order, (diamond_files.lookup p).isSome = true) ∧
      m.messages = (order.map (file_messages diamond_files)).flatten ++
        (root_mavlink.messages.getD []) ∧
      m.enums = ((order.map (file_enums diamond_files)).flatten ++
        (root_mavlink.enums.getD [])).foldl add_enum [] :=
  flatten_post_order_and_merge.1 diamond_files "root.xml"
    { mavlink := root_mavlink,
      normalised_includes := ["common.xml", "mid.xml"] } (by rfl)

/-- C9: whenever the inclusion stack depth already equals the configured
maximum recursion depth, descending into a file only records
RecursionLimitExceeded carrying the current stack and parses nothing; the
default maximum is 10; and with the limit set to 3 the include chain
1, 2, 3, 4 ends with exactly the stack 1, 2, 3 recorded and file 4 left
unparsed. -/
theorem recursion_limit_exceeded :
    (∀ (w : World) (fuel : Nat) (st : Parser) (p : Path),
       st.inclusion_stack.length = st.max_include_recursion →
       parse_normalised w (fuel + 1) st p =
         { st with errors := st.errors ++
             [.RecursionLimitExceeded st.inclusion_stack] }) ∧
    MAX_INCLUDE_RECURSION = 10 ∧
    Parser.new.max_include_recursion = 10 ∧
    chain_result.errors =
      [.RecursionLimitExceeded ["1.xml", "2.xml", "3.xml"]] ∧
    chain_result.parsed.lookup "4.xml" = none ∧
    chain_result.parsed.map Prod.fst = ["1.xml", "2.xml", "3.xml"] :=
  ⟨fun w fuel st p h => by rw [parse_normalised, if_pos h],
   rfl, rfl, by rfl, by rfl, by rfl⟩

/-- Witness for C9 at a parser whose stack has reached its limit. -/
theorem recursion_limit_exceeded_witness :
    parse_normalised chain_world 1 full_stack_state "4.xml" =
      { parsed := [],
        errors := [.RecursionLimitExceeded ["1.xml", "2.xml", "3.xml"]],
        max_include_recursion := 3,
        inclusion_stack := ["1.xml", "2.xml", "3.xml"] } :=
  recursion_limit_exceeded.1 chain_world 0 full_stack_state "4.xml" (by rfl)

/-- A recorded pair makes the association lookup succeed. -/
theorem lookup_isSome_of_mem :
    ∀ {l : List (Path × MavlinkFile)} {a : Path} {f : MavlinkFile},
      (a, f) ∈ l → (l.lookup a).isSome = true
  | [], a, f, h => by cases h
  | (k, v) :: t, a, f, h => by
    rw [List.lookup]
    rcases List.mem_cons.mp h with h1 | h1
    · cases h1
      simp
    · cases hak : a == k with
      | true => simp
      | false => exact lookup_isSome_of_mem h1

/-- With pairwise distinct keys, a key determines its recorded value. -/
theorem mem_assoc_unique :
    ∀ {l : List (Path × MavlinkFile)}, (l.map Prod.fst).Nodup →
      ∀ {a : Path} {f g : MavlinkFile}, (a, f) ∈ l → (a, g) ∈ l → f = g
  | [], _, a, f, g, hf, _ => by cases hf
  | p :: t, hnd, a, f, g, hf, hg => by
    simp only [List.map_cons, List.nodup_cons] at hnd
    rcases List.mem_cons.mp hf with h1 | h1 <;>
      rcases List.mem_cons.mp hg with h2 | h2
    · rw [← h2] at h1
      exact congrArg Prod.snd h1
    · exfalso
      cases h1
      exact hnd.1 (List.mem_map.mpr ⟨(a, g), h2, rfl⟩)
    · exfalso
      cases h2
      exact hnd.1 (List.mem_map.mpr ⟨(a, f), h1, rfl⟩)
    · exact mem_assoc_unique hnd.2 h1 h2

/-- Every node along an include cycle contained in the set c has an include
edge into c. -/
theorem edge_chain_succ (parsed : List (Path × MavlinkFile)) (c : List Path) :
    ∀ (a : Path) (l : List Path) (b : Path),
      edge_chain parsed a l b →
      a ∈ c → (∀ x ∈ l, x ∈ c) → b ∈ c →
      ∀ q ∈ a :: l, ∃ f d, (q, f) ∈ parsed ∧ d ∈ f.normalised_includes ∧ d ∈ c
  | a, [], b, hchain, _, _, hb, q, hq => by
    obtain ⟨f, hmem, hinc⟩ := hchain
    rcases List.mem_cons.mp hq with rfl | h1
    · exact ⟨f, b, hmem, hinc, hb⟩
    · cases h1
  | a, x :: xs, b, hchain, ha, hl, hb, q, hq => by
    obtain ⟨⟨f, hmem, hinc⟩, hrest⟩ := hchain
    rcases List.mem_cons.mp hq with rfl | h1
    · exact ⟨f, x, hmem, hinc, hl x (List.mem_cons_self x xs)⟩
    · exact edge_chain_succ parsed c x xs b hrest
        (hl x (List.mem_cons_self x xs))
        (fun y hy => hl y (List.mem_cons_of_mem x hy)) hb q h1

/-- Kahn invariant: a nonempty set of nodes each of which has an include
edge back into the set can never be emitted, so the topological sort loop
ends with nodes remaining and reports failure. -/
theorem kahn_loop_stuck (parsed : List (Path × MavlinkFile))
    (hnd : (parsed.map Prod.fst).Nodup)
    (c : List Path)
    (hsucc : ∀ q ∈ c, ∃ f d, (q, f) ∈ parsed ∧ d ∈ f.normalised_includes ∧ d ∈ c)
    (q0 : Path) (hq0 : q0 ∈ c) :
    ∀ (fuel : Nat) (removed : List Path), (∀ q ∈ c, removed.contains q = false) →
      kahn_loop parsed fuel removed = false := by
  intro fuel
  induction fuel with
  | zero =>
    intro removed hdisj
    rw [kahn_loop]
    obtain ⟨f, d, hfmem, -, -⟩ := hsucc q0 hq0
    cases hall : parsed.all (fun pf => removed.contains pf.1) with
    | false => rfl
    | true =>
      exfalso
      have := List.all_eq_true.mp hall (q0, f) hfmem
      rw [hdisj q0 hq0] at this
      cases this
  | succ fuel ih =>
    intro removed hdisj
    rw [kahn_loop]
    cases hfind : parsed.find? (fun pf =>
        !(removed.contains pf.1) &&
        !(include_blocked parsed removed pf.2.normalised_includes)) with
    | none =>
      obtain ⟨f, d, hfmem, -, -⟩ := hsucc q0 hq0
      cases hall : parsed.all (fun pf => removed.contains pf.1) with
      | false => rfl
      | true =>
        exfalso
        have := List.all_eq_true.mp hall (q0, f) hfmem
        rw [hdisj q0 hq0] at this
        cases this
    | some pf =>
      have hpred := List.find?_some hfind
      simp only [Bool.and_eq_true, Bool.not_eq_true'] at hpred
      have hnotc : pf.1 ∉ c := by
        intro hin
        obtain ⟨f, d, hfmem, hdinc, hdc⟩ := hsucc pf.1 hin
        have hfeq : f = pf.2 :=
          mem_assoc_unique hnd hfmem (List.mem_of_find?_eq_some hfind)
        subst hfeq
        have hblocked : include_blocked parsed removed pf.2.normalised_includes = true := by
          rw [include_blocked, List.any_eq_true]
          refine ⟨d, hdinc, ?_⟩
          obtain ⟨fd, dd, hfd, -, -⟩ := hsucc d hdc
          rw [lookup_isSome_of_mem hfd, hdisj d hdc]
          rfl
        rw [hblocked] at hpred
        cases hpred.2
      refine ih (pf.1 :: removed) ?_
      intro q hq
      rw [List.contains_cons]
      have hqne : (q == pf.1) = false := by
        cases hqe : q == pf.1 with
        | false => rfl
        | true =>
          exfalso
          exact hnotc (by rwa [← eq_of_beq hqe])
      rw [hqne, hdisj q hq]
      rfl

/-- C8: after all roots are parsed, finish runs cycle detection over the
include graph, and whenever that graph has a directed cycle (it is not a
DAG) the returned error list contains CycleDetected. -/
theorem finish_cycle_detected (st : Parser)
    (hnd : (st.parsed.map Prod.fst).Nodup)
    (hcyc : HasIncludeCycle st.parsed) :
    ∃ errs, st.finish = .error errs ∧ .CycleDetected ∈ errs := by
  have hdet : PError.CycleDetected ∈ (detect_cycles st).errors := by
    rw [detect_cycles]
    cases hself : st.parsed.any
        (fun pf => pf.2.normalised_includes.contains pf.1) with
    | true =>
      simp only [if_pos]
      exact List.mem_append_right _ (List.mem_singleton.mpr rfl)
    | false =>
      obtain ⟨p, rest, hchain⟩ := hcyc
      have hsucc := edge_chain_succ st.parsed (p :: rest) p rest p hchain
        (List.mem_cons_self p rest)
        (fun y hy => List.mem_cons_of_mem p hy)
        (List.mem_cons_self p rest)
      have hstuck : topo_sort_ok st.parsed = false :=
        kahn_loop_stuck st.parsed hnd (p :: rest) hsucc p
          (List.mem_cons_self p rest) st.parsed.length [] (fun q _ => rfl)
      rw [if_neg (by simp), hstuck, if_neg (by simp)]
      exact List.mem_append_right _ (List.mem_singleton.mpr rfl)
  refine ⟨(detect_cycles st).errors, ?_, hdet⟩
  rw [Parser.finish]
  rw [if_neg]
  intro hempty
  rw [List.isEmpty_iff] at hempty
  rw [hempty] at hdet
  cases hdet

/-- Witness for C8: both the two-file cycle of S8 (a.xml and b.xml include
each other) and a direct self-include make finish return an error list
containing CycleDetected. -/
theorem finish_cycle_detected_witness :
    (∃ errs, two_cycle_state.finish = .error errs ∧ .CycleDetected ∈ errs) ∧
    (∃ errs, self_include_state.finish = .error errs ∧ .CycleDetected ∈ errs) :=
  ⟨finish_cycle_detected two_cycle_state (by decide)
    ⟨"a.xml", ["b.xml"],
      ⟨{ mavlink := mavlink_with_includes ["b.xml"],
         normalised_includes := ["b.xml"] },
       List.mem_cons_self _ _, List.mem_singleton.mpr rfl⟩,
      ⟨{ mavlink := mavlink_with_includes ["a.xml"],
         normalised_includes := ["a.xml"] },
       List.mem_cons_of_mem _ (List.mem_cons_self _ _),
       List.mem_singleton.mpr rfl⟩⟩,
   finish_cycle_detected self_include_state (by decide)
    ⟨"s.xml", [],
      ⟨{ mavlink := mavlink_with_includes ["s.xml"],
         normalised_includes := ["s.xml"] },
       List.mem_cons_self _ _, List.mem_singleton.mpr rfl⟩⟩⟩

end Mavgen
